import Mathlib

/-!
# Verification of retropad's encoding-aware file I/O and search/replace core

Shallow embedding of the core routines of the retropad repository:

* `file_io.c` : `DetectEncoding`, `DecodeToWide`, `LoadTextFile`,
  `WriteUTF8WithBOM`, `WriteUTF16LE`, `WriteANSI`, `SaveTextFile`;
* `retropad.c` : `FindInEdit`, `ReplaceAllOccurrences`, `DoFileSave`.

Texts (the editor's wide-character buffers) are modelled as `List Nat` of
UTF-16 code-unit values; raw file contents are modelled as `List Nat` of
byte values.  Platform conversion calls (`MultiByteToWideChar`,
`WideCharToMultiByte`) are modelled by executable UTF-8/UTF-16 converters
following their documented semantics; `CharLowerBuffW` is modelled on the
ASCII range; the active ANSI code page is an abstract parameter.
-/

namespace Retropad

/-- The `TextEncoding` enumeration from `file_io.h`. -/
inductive TextEncoding where
  | UTF8
  | UTF16LE
  | UTF16BE
  | ANSI
deriving DecidableEq, Repr

/-- Models `CharLowerBuffW` character-wise on the ASCII range: `A`–`Z` map to
`a`–`z`, all other code units are returned unchanged.  (The platform call
lowercases per locale; only the ASCII mapping is exercised by the claims.) -/
def toLowerW (c : Nat) : Nat :=
  if 0x41 ≤ c ∧ c ≤ 0x5A then c + 0x20 else c

/-- `beginsWith nd l` is true when the list `nd` is an initial segment of `l`
(the character-by-character comparison `wcsstr` performs at one offset). -/
def beginsWith : List Nat → List Nat → Bool
  | [], _ => true
  | _ :: _, [] => false
  | a :: as, b :: bs => a == b && beginsWith as bs

/-- The needle `nd` occurs in `hay` at offset `i`. -/
def matchAt (hay nd : List Nat) (i : Nat) : Bool :=
  beginsWith nd (hay.drop i)

/-- Scanning core of `wcsstr`: walk the remaining suffix `l`, whose first
character sits at absolute offset `i`, and return the offset of the first
occurrence of `nd`. -/
def wcsstrAux (nd : List Nat) : List Nat → Nat → Option Nat
  | [], i => if beginsWith nd [] then some i else none
  | c :: rest, i =>
      if beginsWith nd (c :: rest) then some i else wcsstrAux nd rest (i + 1)

/-- Models `wcsstr(hay + p, nd)`, returning the absolute offset of the first
occurrence of `nd` in `hay` at or after offset `p` (`none` when there is no
occurrence, i.e. the C call returns `NULL`). -/
def wcsstrFrom (hay nd : List Nat) (p : Nat) : Option Nat :=
  wcsstrAux nd (hay.drop p) p

theorem beginsWith_nil_iff (nd : List Nat) : beginsWith nd [] = true ↔ nd = [] := by
  cases nd <;> simp [beginsWith]

theorem beginsWith_length {nd l : List Nat} (h : beginsWith nd l = true) :
    nd.length ≤ l.length := by
  induction nd generalizing l with
  | nil => simp
  | cons a as ih =>
    cases l with
    | nil => simp [beginsWith] at h
    | cons b bs =>
      simp only [beginsWith, Bool.and_eq_true] at h
      simpa [Nat.succ_le_succ_iff] using ih h.2

/-- A match of a non-empty needle lies strictly inside the haystack. -/
theorem matchAt_lt_length {hay nd : List Nat} (hnd : nd ≠ []) {i : Nat}
    (h : matchAt hay nd i = true) : i < hay.length := by
  by_contra hge
  push_neg at hge
  have hdrop : hay.drop i = [] := List.drop_eq_nil_of_le hge
  rw [matchAt, hdrop, beginsWith_nil_iff] at h
  exact hnd h

/-- A match of a non-empty needle ends inside the haystack. -/
theorem matchAt_add_le {hay nd : List Nat} (hnd : nd ≠ []) {i : Nat}
    (h : matchAt hay nd i = true) : i + nd.length ≤ hay.length := by
  have hlt := matchAt_lt_length hnd h
  have hlen := beginsWith_length h
  rw [List.length_drop] at hlen
  omega

theorem wcsstrAux_some_spec {nd : List Nat} :
    ∀ (l : List Nat) (i j : Nat), wcsstrAux nd l i = some j →
      i ≤ j ∧ beginsWith nd (l.drop (j - i)) = true ∧
      ∀ k, k < j - i → beginsWith nd (l.drop k) = false := by
  intro l
  induction l with
  | nil =>
    intro i j h
    simp only [wcsstrAux] at h
    split at h
    · rename_i hb
      cases h
      simp only [Nat.sub_self, List.drop_nil]
      exact ⟨Nat.le.refl, hb, fun k hk => absurd hk (by omega)⟩
    · exact absurd h (by simp)
  | cons c rest ih =>
    intro i j h
    simp only [wcsstrAux] at h
    split at h
    · rename_i hb
      cases h
      refine ⟨Nat.le.refl, by simpa using hb, fun k hk => absurd hk (by omega)⟩
    · rename_i hb
      obtain ⟨hij, hmatch, hmin⟩ := ih (i + 1) j h
      refine ⟨by omega, ?_, ?_⟩
      · have : (c :: rest).drop (j - i) = rest.drop (j - (i + 1)) := by
          have : j - i = (j - (i + 1)) + 1 := by omega
          rw [this]
          simp
        rw [this]
        exact hmatch
      · intro k hk
        cases k with
        | zero => simpa using Bool.of_not_eq_true hb
        | succ k' =>
          have : (c :: rest).drop (k' + 1) = rest.drop k' := by simp
          rw [this]
          exact hmin k' (by omega)

theorem wcsstrAux_none_spec {nd : List Nat} :
    ∀ (l : List Nat) (i : Nat), wcsstrAux nd l i = none →
      ∀ k, beginsWith nd (l.drop k) = false := by
  intro l
  induction l with
  | nil =>
    intro i h k
    simp only [wcsstrAux] at h
    split at h
    · cases h
    · rename_i hb
      simpa using Bool.of_not_eq_true hb
  | cons c rest ih =>
    intro i h k
    simp only [wcsstrAux] at h
    split at h
    · cases h
    · rename_i hb
      cases k with
      | zero => simpa using Bool.of_not_eq_true hb
      | succ k' =>
        have : (c :: rest).drop (k' + 1) = rest.drop k' := by simp
        rw [this]
        exact ih (i + 1) h k'

/-- Characterization of a successful `wcsstr` call: the returned offset is at
or after the start offset, carries a match, and is the least such offset. -/
theorem wcsstrFrom_some_spec {hay nd : List Nat} {p j : Nat}
    (h : wcsstrFrom hay nd p = some j) :
    p ≤ j ∧ matchAt hay nd j = true ∧
    ∀ k, p ≤ k → k < j → matchAt hay nd k = false := by
  obtain ⟨hpj, hmatch, hmin⟩ := wcsstrAux_some_spec (hay.drop p) p j h
  have hdrop : ∀ m, p ≤ m → (hay.drop p).drop (m - p) = hay.drop m := by
    intro m hm
    rw [List.drop_drop]
    congr 1
    omega
  refine ⟨hpj, ?_, ?_⟩
  · rw [matchAt, ← hdrop j hpj]
    exact hmatch
  · intro k hpk hkj
    rw [matchAt, ← hdrop k hpk]
    exact hmin (k - p) (by omega)

/-- Characterization of a failed `wcsstr` call: no offset at or after the start
offset carries a match. -/
theorem wcsstrFrom_none_spec {hay nd : List Nat} {p : Nat}
    (h : wcsstrFrom hay nd p = none) :
    ∀ k, p ≤ k → matchAt hay nd k = false := by
  intro k hk
  have := wcsstrAux_none_spec (hay.drop p) p h (k - p)
  rw [matchAt]
  have hdrop : (hay.drop p).drop (k - p) = hay.drop k := by
    rw [List.drop_drop]
    congr 1
    omega
  rw [← hdrop]
  exact this

/-- Converse characterization: the least matching offset at or after `p` is
exactly what `wcsstr` returns. -/
theorem wcsstrFrom_eq_some {hay nd : List Nat} {p j : Nat}
    (hpj : p ≤ j) (hm : matchAt hay nd j = true)
    (hmin : ∀ k, p ≤ k → k < j → matchAt hay nd k = false) :
    wcsstrFrom hay nd p = some j := by
  cases h : wcsstrFrom hay nd p with
  | none =>
    have := wcsstrFrom_none_spec h j hpj
    rw [hm] at this
    cases this
  | some j' =>
    obtain ⟨hpj', hm', hmin'⟩ := wcsstrFrom_some_spec h
    rcases Nat.lt_trichotomy j' j with hlt | heq | hgt
    · have := hmin j' hpj' hlt
      rw [hm'] at this
      cases this
    · rw [heq]
    · have := hmin' j hpj hgt
      rw [hm] at this
      cases this

/-- Bounds of a successful `wcsstr` call with a non-empty needle (used for
termination of the scanning loops). -/
theorem wcsstrFrom_some_bounds {hay nd : List Nat} (hnd : nd ≠ []) {p j : Nat}
    (h : wcsstrFrom hay nd p = some j) : p ≤ j ∧ j < hay.length := by
  obtain ⟨hpj, hm, _⟩ := wcsstrFrom_some_spec h
  exact ⟨hpj, matchAt_lt_length hnd hm⟩

/-! ## The search engine: `FindInEdit` (retropad.c) -/

/-- The backward-search loop of `FindInEdit`: starting the scan at offset `p`,
repeatedly take the next match; while its offset is below `startPos`, remember
it and continue one position later; stop at the first match at or past
`startPos` (the `break`).  `found` is the last remembered match.  The loop is
only reached with a non-empty needle (`FindInEdit` rejects empty needles). -/
def backwardScan (hay nd : List Nat) (hnd : nd ≠ []) (startPos p : Nat)
    (found : Option Nat) : Option Nat :=
  match h : wcsstrFrom hay nd p with
  | none => found
  | some idx =>
      if idx < startPos then backwardScan hay nd hnd startPos (idx + 1) (some idx)
      else found
termination_by hay.length - p
decreasing_by
  have := wcsstrFrom_some_bounds hnd h
  omega

/-- The backward wrap-around loop of `FindInEdit`: scan from `p` to the end,
remembering every match; the last one remembered is returned. -/
def lastScan (hay nd : List Nat) (hnd : nd ≠ []) (p : Nat)
    (found : Option Nat) : Option Nat :=
  match h : wcsstrFrom hay nd p with
  | none => found
  | some idx => lastScan hay nd hnd (idx + 1) (some idx)
termination_by hay.length - p
decreasing_by
  have := wcsstrFrom_some_bounds hnd h
  omega

/-- Model of `FindInEdit` (retropad.c).  `text` is the edit control's text,
`startPos` the start offset.  Returns the half-open match range
`(outStart, outEnd)` or `none` when not found.  Mirrors the source: empty
needle rejected up front; for case-insensitive search both haystack and needle
are lowercased; the start position is clamped to the text length; forward
search scans from the start position and wraps once to offset 0; backward
search keeps the last match below the start position and wraps by keeping the
last match at or after it. -/
def findInEdit (text nd : List Nat) (matchCase searchDown : Bool)
    (startPos0 : Nat) : Option (Nat × Nat) :=
  if hnd : nd = [] then none
  else
    let haystack := if matchCase then text else text.map toLowerW
    let needleBuf := if matchCase then nd else nd.map toLowerW
    have hnb : needleBuf ≠ [] := by
      cases matchCase <;> simp_all [needleBuf]
    let len := text.length
    let startPos := if startPos0 > len then len else startPos0
    let found : Option Nat :=
      if searchDown then
        match wcsstrFrom haystack needleBuf startPos with
        | some idx => some idx
        | none => if startPos > 0 then wcsstrFrom haystack needleBuf 0 else none
      else
        match backwardScan haystack needleBuf hnb startPos 0 none with
        | some idx => some idx
        | none =>
            if startPos < len then lastScan haystack needleBuf hnb startPos none
            else none
    found.map (fun pos => (pos, pos + nd.length))

/-! ### Spec-side characterizations of the search loops

These definitions follow the spec's words ("the match with the greatest start
offset among ...", "the first match at or after ...") and are proved equal to
the code's scanning loops. -/

/-- Spec-side: the greatest offset `i` with `lo ≤ i < b` at which `nd` matches
in `hay`, or `none`. -/
def greatestMatchBelow (hay nd : List Nat) (lo : Nat) : Nat → Option Nat
  | 0 => none
  | b + 1 =>
      if lo ≤ b ∧ matchAt hay nd b = true then some b
      else greatestMatchBelow hay nd lo b

/-- Spec-side: the least offset `i` with `lo ≤ i < b` at which `nd` matches in
`hay`, or `none`. -/
def leastMatchBelow (hay nd : List Nat) (lo : Nat) : Nat → Option Nat
  | 0 => none
  | b + 1 =>
      match leastMatchBelow hay nd lo b with
      | some g => some g
      | none => if lo ≤ b ∧ matchAt hay nd b = true then some b else none

/-! ## The search engine: `ReplaceAllOccurrences` (retropad.c) -/

/-- First pass of `ReplaceAllOccurrences`: count non-overlapping occurrences
of `nd` in the comparison buffer `hay`, scanning left to right from offset `p`
and advancing past each match by the needle length.  The loop is reached only
with a non-empty needle (the enclosing function returns early otherwise). -/
def countLoop (hay nd : List Nat) (hnd : nd ≠ []) (p : Nat) : Nat :=
  match h : wcsstrFrom hay nd p with
  | none => 0
  | some idx => 1 + countLoop hay nd hnd (idx + nd.length)
termination_by hay.length - p
decreasing_by
  have h1 := wcsstrFrom_some_bounds hnd h
  have h2 : 0 < nd.length := List.length_pos.mpr hnd
  omega

/-- Second pass of `ReplaceAllOccurrences`: walk the comparison buffer
`search` and the original-case text `orig` in lockstep from offset `p` (both
cursors always sit at the same offset); for each match located in `search`,
emit the preceding original-case span verbatim, then the replacement, then
advance both cursors past the needle; after the last match emit the remaining
original-case tail. -/
def replaceBuild (orig search nd repl : List Nat) (hnd : nd ≠ []) (p : Nat) :
    List Nat :=
  match h : wcsstrFrom search nd p with
  | none => orig.drop p
  | some idx =>
      (orig.drop p).take (idx - p) ++ repl ++
        replaceBuild orig search nd repl hnd (idx + nd.length)
termination_by search.length - p
decreasing_by
  have h1 := wcsstrFrom_some_bounds hnd h
  have h2 : 0 < nd.length := List.length_pos.mpr hnd
  omega

/-- The outcome of `ReplaceAllOccurrences`: the returned count and the
document text after the call. -/
structure ReplaceResult where
  occurrenceCount : Nat
  newText : List Nat
deriving DecidableEq, Repr

/-- Model of `ReplaceAllOccurrences` (retropad.c).  An empty needle returns 0
with the text untouched.  Otherwise the comparison copies of text and needle
are lowercased when `matchCase` is false, occurrences are counted, and when
the count is non-zero the rebuilt text replaces the document. -/
def replaceAllOccurrences (text nd repl : List Nat) (matchCase : Bool) :
    ReplaceResult :=
  if hnd : nd = [] then ⟨0, text⟩
  else
    have hb : (if matchCase then nd else nd.map toLowerW) ≠ [] := by
      cases matchCase <;> simp [hnd]
    let searchBuf := if matchCase then text else text.map toLowerW
    let needleBuf := if matchCase then nd else nd.map toLowerW
    let count := countLoop searchBuf needleBuf hb 0
    if count = 0 then ⟨0, text⟩
    else ⟨count, replaceBuild text searchBuf needleBuf repl hb 0⟩

/-- Spec-side replace-all under case-insensitive matching, following the
spec's words: locate each match in the lowercased copies, copy the preceding
original-case span verbatim, emit the replacement, and continue past the
match; the remainder after the last match is copied verbatim. -/
def specReplaceCI (orig nd repl : List Nat) (hnd : nd ≠ []) : List Nat :=
  match h : wcsstrFrom (orig.map toLowerW) (nd.map toLowerW) 0 with
  | none => orig
  | some i =>
      orig.take i ++ repl ++ specReplaceCI (orig.drop (i + nd.length)) nd repl hnd
termination_by orig.length
decreasing_by
  have hb : nd.map toLowerW ≠ [] := by simp [hnd]
  have h2 := matchAt_add_le hb (wcsstrFrom_some_spec h).2.1
  simp only [List.length_map] at h2
  have h3 : 0 < nd.length := List.length_pos.mpr hnd
  simp only [List.length_drop]
  omega

/-! ## Unicode machinery: models of the platform conversion calls -/

/-- UTF-8 bytes of one Unicode code point (the standard 1–4-byte patterns, as
emitted by `WideCharToMultiByte(CP_UTF8, 0, …)` for scalar values). -/
def cpToUtf8 (c : Nat) : List Nat :=
  if c < 0x80 then [c]
  else if c < 0x800 then [0xC0 + c / 64, 0x80 + c % 64]
  else if c < 0x10000 then
    [0xE0 + c / 4096, 0x80 + c / 64 % 64, 0x80 + c % 64]
  else
    [0xF0 + c / 0x40000, 0x80 + c / 4096 % 64, 0x80 + c / 64 % 64, 0x80 + c % 64]

/-- UTF-16 code units of one Unicode code point: one unit below U+10000, a
surrogate pair above. -/
def cpToUtf16 (c : Nat) : List Nat :=
  if c < 0x10000 then [c]
  else [0xD800 + (c - 0x10000) / 0x400, 0xDC00 + (c - 0x10000) % 0x400]

/-- Code points of a UTF-16 code-unit sequence, pairing surrogates; an
unpaired surrogate becomes U+FFFD (the default, non-failing behavior of the
platform conversions the source calls with flags 0). -/
def utf16ToCodepoints : List Nat → List Nat
  | [] => []
  | [u] =>
    if 0xD800 ≤ u ∧ u ≤ 0xDFFF then [0xFFFD] else [u]
  | u :: v :: rest =>
    if 0xD800 ≤ u ∧ u ≤ 0xDBFF then
      if 0xDC00 ≤ v ∧ v ≤ 0xDFFF then
        (0x10000 + (u - 0xD800) * 0x400 + (v - 0xDC00)) :: utf16ToCodepoints rest
      else 0xFFFD :: utf16ToCodepoints (v :: rest)
    else if 0xDC00 ≤ u ∧ u ≤ 0xDFFF then 0xFFFD :: utf16ToCodepoints (v :: rest)
    else u :: utf16ToCodepoints (v :: rest)

/-- One step of strict UTF-8 decoding: given a lead byte and the bytes after
it, the decoded code point and the bytes remaining after the sequence, or
`none` for a malformed lead or continuation byte, an overlong form, a
surrogate, or a value above U+10FFFF. -/
def utf8DecodeOne (b : Nat) (rest : List Nat) : Option (Nat × List Nat) :=
  if b < 0x80 then some (b, rest)
  else if b < 0xC2 then none
  else if b < 0xE0 then
    match rest with
    | b1 :: rest' =>
      if 0x80 ≤ b1 ∧ b1 < 0xC0 then
        some ((b - 0xC0) * 64 + (b1 - 0x80), rest')
      else none
    | [] => none
  else if b < 0xF0 then
    match rest with
    | b1 :: b2 :: rest' =>
      if ((0x80 ≤ b1 ∧ b1 < 0xC0) ∧ 0x80 ≤ b2 ∧ b2 < 0xC0) ∧
          ¬((b - 0xE0) * 4096 + (b1 - 0x80) * 64 + (b2 - 0x80) < 0x800 ∨
            (0xD800 ≤ (b - 0xE0) * 4096 + (b1 - 0x80) * 64 + (b2 - 0x80) ∧
             (b - 0xE0) * 4096 + (b1 - 0x80) * 64 + (b2 - 0x80) ≤ 0xDFFF)) then
        some ((b - 0xE0) * 4096 + (b1 - 0x80) * 64 + (b2 - 0x80), rest')
      else none
    | _ => none
  else if b < 0xF5 then
    match rest with
    | b1 :: b2 :: b3 :: rest' =>
      if ((0x80 ≤ b1 ∧ b1 < 0xC0) ∧ (0x80 ≤ b2 ∧ b2 < 0xC0) ∧
            0x80 ≤ b3 ∧ b3 < 0xC0) ∧
          ¬((b - 0xF0) * 0x40000 + (b1 - 0x80) * 4096 + (b2 - 0x80) * 64 +
              (b3 - 0x80) < 0x10000 ∨
            0x10FFFF < (b - 0xF0) * 0x40000 + (b1 - 0x80) * 4096 +
              (b2 - 0x80) * 64 + (b3 - 0x80)) then
        some ((b - 0xF0) * 0x40000 + (b1 - 0x80) * 4096 + (b2 - 0x80) * 64 +
          (b3 - 0x80), rest')
      else none
    | _ => none
  else none

/-- Iterate `utf8DecodeOne` over the whole input.  The fuel argument merely
drives the structural recursion; one unit is consumed per decoded sequence, so
any fuel of at least the input length gives the same result (see
`utf8DecodeStrictAux_fuel`). -/
def utf8DecodeStrictAux : Nat → List Nat → Option (List Nat)
  | _, [] => some []
  | 0, _ :: _ => none
  | fuel + 1, b :: rest =>
    match utf8DecodeOne b rest with
    | none => none
    | some (c, rest') => (utf8DecodeStrictAux fuel rest').map (c :: ·)

/-- Strict UTF-8 decoding to code points: rejects malformed lead or
continuation bytes, overlong forms, surrogates and values above U+10FFFF
(models `MultiByteToWideChar(CP_UTF8, MB_ERR_INVALID_CHARS, …)` validation). -/
def utf8DecodeStrict (l : List Nat) : Option (List Nat) :=
  utf8DecodeStrictAux l.length l

/-- Return value of the strict validation call
`MultiByteToWideChar(CP_UTF8, MB_ERR_INVALID_CHARS, data, size, NULL, 0)` used
by `DetectEncoding`: the number of UTF-16 code units the input decodes to, and
0 both when the input is not valid UTF-8 and when it is empty (the call fails
with 0 in both cases). -/
def multiByteToWideCharUtf8Strict (bytes : List Nat) : Nat :=
  match utf8DecodeStrict bytes with
  | none => 0
  | some cps => (cps.flatMap cpToUtf16).length

/-- Output units of the non-strict decode `MultiByteToWideChar(CP_UTF8, 0, …)`
used by `DecodeToWide`: well-formed input decodes to its code points' UTF-16
units.  Malformed input does not fail but yields replacement characters; the
exact per-byte replacement policy is platform detail no theorem below depends
on, modelled as a single U+FFFD. -/
def mb2wcUtf8Units (bytes : List Nat) : List Nat :=
  match utf8DecodeStrict bytes with
  | some cps => cps.flatMap cpToUtf16
  | none => [0xFFFD]

/-- A UTF-16 code-unit sequence with no unpaired surrogate. -/
def wellFormedUtf16 : List Nat → Bool
  | [] => true
  | [u] => if 0xD800 ≤ u ∧ u ≤ 0xDFFF then false else true
  | u :: v :: rest =>
    if 0xD800 ≤ u ∧ u ≤ 0xDBFF then
      if 0xDC00 ≤ v ∧ v ≤ 0xDFFF then wellFormedUtf16 rest else false
    else if 0xDC00 ≤ u ∧ u ≤ 0xDFFF then false
    else wellFormedUtf16 (v :: rest)

/-- A Unicode scalar value: in range and not a surrogate. -/
def ValidScalar (c : Nat) : Prop :=
  c ≤ 0x10FFFF ∧ ¬(0xD800 ≤ c ∧ c ≤ 0xDFFF)

instance : DecidablePred ValidScalar := fun c => by
  unfold ValidScalar
  infer_instance

/-! ## Encoding detection, decode, encode (file_io.c) -/

/-- Abstract model of the active ANSI code page (`CP_ACP`), assumed
single-byte: `toWide` is the byte-to-code-unit map `MultiByteToWideChar`
applies, `fromWide` the code-unit-to-byte map `WideCharToMultiByte` applies
(already folding in the default-character substitution for unrepresentable
units). -/
structure AnsiCodePage where
  toWide : Nat → Nat
  fromWide : Nat → Nat

/-- A concrete single-byte code page used in counterexamples: bytes map to the
identical code units (Latin-1 style); units above 0xFF are unrepresentable and
encode to the default character `?` (0x3F). -/
def latin1Page : AnsiCodePage where
  toWide := fun b => b
  fromWide := fun u => if u ≤ 0xFF then u else 0x3F

/-- Model of `DetectEncoding` (file_io.c): BOM checks in fixed priority order
(UTF-16LE, UTF-16BE, UTF-8), then strict UTF-8 validation of the whole
buffer; `wlen > 0` means the validation call succeeded. -/
def detectEncoding (data : List Nat) : TextEncoding :=
  if 2 ≤ data.length ∧ data.getD 0 0 = 0xFF ∧ data.getD 1 0 = 0xFE then .UTF16LE
  else if 2 ≤ data.length ∧ data.getD 0 0 = 0xFE ∧ data.getD 1 0 = 0xFF then
    .UTF16BE
  else if 3 ≤ data.length ∧ data.getD 0 0 = 0xEF ∧ data.getD 1 0 = 0xBB ∧
      data.getD 2 0 = 0xBF then .UTF8
  else if 0 < multiByteToWideCharUtf8Strict data then .UTF8
  else .ANSI

/-- Spec-side rendering of the §4.1 detection cascade (prefix comparisons and
an explicit "whole content is valid UTF-8 and non-empty" condition). -/
def specDetectEncoding (bytes : List Nat) : TextEncoding :=
  if bytes.take 2 = [0xFF, 0xFE] then .UTF16LE
  else if bytes.take 2 = [0xFE, 0xFF] then .UTF16BE
  else if bytes.take 3 = [0xEF, 0xBB, 0xBF] then .UTF8
  else if bytes ≠ [] ∧ (utf8DecodeStrict bytes).isSome then .UTF8
  else .ANSI

/-- Reinterpret a byte sequence as little-endian 16-bit code units (the
`CopyMemory` of `(size - byteOffset) / 2` WCHARs in `DecodeToWide`); a
trailing odd byte is dropped. -/
def bytesToWideLE : List Nat → List Nat
  | b0 :: b1 :: rest => (b0 + 256 * b1) :: bytesToWideLE rest
  | _ => []

/-- Big-endian byte pairs to native code units (the byte-swap loop of
`DecodeToWide`); a trailing odd byte is dropped. -/
def bytesToWideBE : List Nat → List Nat
  | b0 :: b1 :: rest => (256 * b0 + b1) :: bytesToWideBE rest
  | _ => []

/-- Model of `DecodeToWide` (file_io.c): decode raw bytes to code units per
the given encoding, `none` where the C function returns FALSE (allocation
failure aside).  UTF-16 variants require at least 2 bytes and skip a matching
BOM; UTF-8 skips a BOM and fails for zero post-BOM length (the conversion
call returns 0); ANSI maps each byte through the active code page and fails
only for empty input (the conversion call returns 0). -/
def decodeToWide (cp : AnsiCodePage) (data : List Nat)
    (encoding : TextEncoding) : Option (List Nat) :=
  match encoding with
  | .UTF16LE =>
      if data.length < 2 then none
      else
        let byteOffset :=
          if data.getD 0 0 = 0xFF ∧ data.getD 1 0 = 0xFE then 2 else 0
        some (bytesToWideLE (data.drop byteOffset))
  | .UTF16BE =>
      if data.length < 2 then none
      else
        let byteOffset :=
          if data.getD 0 0 = 0xFE ∧ data.getD 1 0 = 0xFF then 2 else 0
        some (bytesToWideBE (data.drop byteOffset))
  | .UTF8 =>
      let byteOffset :=
        if 3 ≤ data.length ∧ data.getD 0 0 = 0xEF ∧ data.getD 1 0 = 0xBB ∧
            data.getD 2 0 = 0xBF then 3 else 0
      if data.length - byteOffset = 0 then none
      else some (mb2wcUtf8Units (data.drop byteOffset))
  | .ANSI =>
      if data.length = 0 then none
      else some (data.map cp.toWide)

/-- The UTF-8 byte encoding of a code-unit sequence, as produced by
`WideCharToMultiByte(CP_UTF8, 0, …)`: surrogate pairs combine, unpaired
surrogates are replaced by U+FFFD. -/
def utf8BytesOf (text : List Nat) : List Nat :=
  (utf16ToCodepoints text).flatMap cpToUtf8

/-- Model of `WriteUTF8WithBOM` (file_io.c): the bytes the call writes, or
`none` where it returns FALSE.  The conversion reports zero bytes exactly for
empty text, and the `bytes <= 0` check treats that as failure (the 3-byte BOM
has already been written to the file at that point). -/
def writeUTF8WithBOM (text : List Nat) : Option (List Nat) :=
  if (utf8BytesOf text).length = 0 then none
  else some ([0xEF, 0xBB, 0xBF] ++ utf8BytesOf text)

/-- Model of `WriteUTF16LE` (file_io.c): BOM `FF FE` followed by each code
unit's two little-endian bytes (each WCHAR is 16 bits wide in memory). -/
def writeUTF16LE (text : List Nat) : Option (List Nat) :=
  some ([0xFF, 0xFE] ++ text.flatMap (fun u => [u % 256, u / 256 % 256]))

/-- Model of `WriteANSI` (file_io.c): each code unit mapped through the active
code page, no BOM; the conversion reports zero bytes exactly for empty text,
treated as failure by the `bytes <= 0` check. -/
def writeANSI (cp : AnsiCodePage) (text : List Nat) : Option (List Nat) :=
  if (text.map cp.fromWide).length = 0 then none
  else some (text.map cp.fromWide)

/-- Model of `SaveTextFile` (file_io.c): the bytes written for a requested
encoding (`none` where the write fails).  A UTF16BE request takes the
`WriteUTF8WithBOM` path (and the local `encoding` variable is overwritten
with `ENC_UTF8`; see `saveTextFileLocalEncoding`). -/
def saveTextFile (cp : AnsiCodePage) (text : List Nat)
    (encoding : TextEncoding) : Option (List Nat) :=
  match encoding with
  | .UTF16LE => writeUTF16LE text
  | .ANSI => writeANSI cp text
  | .UTF16BE => writeUTF8WithBOM text
  | .UTF8 => writeUTF8WithBOM text

/-- Final value of `SaveTextFile`'s local `encoding` parameter after its
`switch` (the `ENC_UTF16BE` case executes `encoding = ENC_UTF8`).  The
parameter is passed by value in C, so this value never escapes to callers. -/
def saveTextFileLocalEncoding (encoding : TextEncoding) : TextEncoding :=
  match encoding with
  | .UTF16BE => .UTF8
  | e => e

/-- The caller-visible encoding after `DoFileSave` (retropad.c): it passes
`g_app.encoding` to `SaveTextFile` by value and never reassigns
`g_app.encoding` anywhere on the save path, so the stored encoding is
whatever it was before the call. -/
def doFileSaveEncodingAfter (appEncoding : TextEncoding) : TextEncoding :=
  appEncoding

/-- Result of a successful `LoadTextFile`: the decoded text and the reported
encoding. -/
structure LoadResult where
  text : List Nat
  encoding : TextEncoding
deriving DecidableEq, Repr

/-- Model of `LoadTextFile` (file_io.c), given the file's bytes: a zero-byte
file short-circuits to an empty text with reported encoding `ENC_UTF8`
(detection is not reached); otherwise the encoding is detected and the bytes
decoded with it. -/
def loadTextFile (cp : AnsiCodePage) (bytes : List Nat) : Option LoadResult :=
  if bytes.length = 0 then some ⟨[], .UTF8⟩
  else
    match decodeToWide cp bytes (detectEncoding bytes) with
    | none => none
    | some text => some ⟨text, detectEncoding bytes⟩

theorem greatestMatchBelow_some_spec {hay nd : List Nat} {lo b g : Nat}
    (h : greatestMatchBelow hay nd lo b = some g) :
    lo ≤ g ∧ g < b ∧ matchAt hay nd g = true ∧
    ∀ k, g < k → k < b → lo ≤ k → matchAt hay nd k = false := by
  induction b with
  | zero => cases h
  | succ b ih =>
    rw [greatestMatchBelow] at h
    split at h
    · rename_i hc
      cases h
      exact ⟨hc.1, Nat.lt_succ_self _, hc.2, fun k h1 h2 _ => absurd h2 (by omega)⟩
    · rename_i hc
      obtain ⟨h1, h2, h3, h4⟩ := ih h
      refine ⟨h1, by omega, h3, fun k hk1 hk2 hk3 => ?_⟩
      rcases Nat.lt_or_ge k b with hlt | hge
      · exact h4 k hk1 hlt hk3
      · have : k = b := by omega
        subst this
        rcases Decidable.em (matchAt hay nd k = true) with hm | hm
        · exact absurd ⟨hk3, hm⟩ hc
        · exact Bool.of_not_eq_true hm

theorem greatestMatchBelow_none_spec {hay nd : List Nat} {lo b : Nat}
    (h : greatestMatchBelow hay nd lo b = none) :
    ∀ k, lo ≤ k → k < b → matchAt hay nd k = false := by
  induction b with
  | zero => intro k _ hk; omega
  | succ b ih =>
    rw [greatestMatchBelow] at h
    split at h
    · cases h
    · rename_i hc
      intro k hk1 hk2
      rcases Nat.lt_or_ge k b with hlt | hge
      · exact ih h k hk1 hlt
      · have : k = b := by omega
        subst this
        rcases Decidable.em (matchAt hay nd k = true) with hm | hm
        · exact absurd ⟨hk1, hm⟩ hc
        · exact Bool.of_not_eq_true hm

theorem greatestMatchBelow_eq_some {hay nd : List Nat} {lo b g : Nat}
    (h1 : lo ≤ g) (h2 : g < b) (h3 : matchAt hay nd g = true)
    (h4 : ∀ k, g < k → k < b → lo ≤ k → matchAt hay nd k = false) :
    greatestMatchBelow hay nd lo b = some g := by
  induction b with
  | zero => omega
  | succ b ih =>
    rw [greatestMatchBelow]
    rcases Nat.lt_or_ge g b with hlt | hge
    · rw [if_neg, ih hlt (fun k hk1 hk2 hk3 => h4 k hk1 (by omega) hk3)]
      rintro ⟨hlo, hm⟩
      have := h4 b (by omega) (by omega) hlo
      rw [hm] at this
      cases this
    · have : g = b := by omega
      subst this
      rw [if_pos ⟨h1, h3⟩]

/-- Failure of `leastMatchBelow` means no match in the range. -/
theorem leastMatchBelow_none_spec {hay nd : List Nat} {lo b : Nat}
    (h : leastMatchBelow hay nd lo b = none) :
    ∀ k, lo ≤ k → k < b → matchAt hay nd k = false := by
  induction b with
  | zero => intro k _ hk; omega
  | succ b ih =>
    rw [leastMatchBelow] at h
    cases hrec : leastMatchBelow hay nd lo b with
    | some g' => rw [hrec] at h; cases h
    | none =>
      rw [hrec] at h
      by_cases hc : lo ≤ b ∧ matchAt hay nd b = true
      · rw [if_pos hc] at h
        cases h
      · intro k hk1 hk2
        rcases Nat.lt_or_ge k b with hlt | hge
        · exact ih hrec k hk1 hlt
        · have : k = b := by omega
          subst this
          rcases Decidable.em (matchAt hay nd k = true) with hm | hm
          · exact absurd ⟨hk1, hm⟩ hc
          · exact Bool.of_not_eq_true hm

theorem leastMatchBelow_some_spec {hay nd : List Nat} {lo b g : Nat}
    (h : leastMatchBelow hay nd lo b = some g) :
    lo ≤ g ∧ g < b ∧ matchAt hay nd g = true ∧
    ∀ k, lo ≤ k → k < g → matchAt hay nd k = false := by
  induction b with
  | zero => cases h
  | succ b ih =>
    rw [leastMatchBelow] at h
    cases hrec : leastMatchBelow hay nd lo b with
    | some g' =>
      rw [hrec] at h
      cases h
      obtain ⟨h1, h2, h3, h4⟩ := ih hrec
      exact ⟨h1, by omega, h3, h4⟩
    | none =>
      rw [hrec] at h
      by_cases hc : lo ≤ b ∧ matchAt hay nd b = true
      · rw [if_pos hc] at h
        cases h
        exact ⟨hc.1, Nat.lt_succ_self _, hc.2,
          fun k hk1 hk2 => leastMatchBelow_none_spec hrec k hk1 hk2⟩
      · rw [if_neg hc] at h
        cases h

theorem greatestMatchBelow_eq_none {hay nd : List Nat} {lo b : Nat}
    (h : ∀ k, lo ≤ k → k < b → matchAt hay nd k = false) :
    greatestMatchBelow hay nd lo b = none := by
  cases hg : greatestMatchBelow hay nd lo b with
  | none => rfl
  | some g =>
    obtain ⟨h1, h2, h3, _⟩ := greatestMatchBelow_some_spec hg
    rw [h g h1 h2] at h3
    cases h3

theorem leastMatchBelow_eq_some {hay nd : List Nat} {lo b g : Nat}
    (h1 : lo ≤ g) (h2 : g < b) (h3 : matchAt hay nd g = true)
    (h4 : ∀ k, lo ≤ k → k < g → matchAt hay nd k = false) :
    leastMatchBelow hay nd lo b = some g := by
  cases hg : leastMatchBelow hay nd lo b with
  | none =>
    have := leastMatchBelow_none_spec hg g h1 h2
    rw [h3] at this
    cases this
  | some g' =>
    obtain ⟨h1', h2', h3', h4'⟩ := leastMatchBelow_some_spec hg
    rcases Nat.lt_trichotomy g' g with hlt | heq | hgt
    · have := h4 g' h1' hlt
      rw [h3'] at this
      cases this
    · rw [heq]
    · have := h4' g h1 hgt
      rw [h3] at this
      cases this

/-- For a non-empty needle, `wcsstr` from offset `p` computes the least match
at an offset in `[p, len)`. -/
theorem wcsstrFrom_eq_leastMatchBelow {hay nd : List Nat} (hnd : nd ≠ [])
    (p : Nat) :
    wcsstrFrom hay nd p = leastMatchBelow hay nd p hay.length := by
  cases h : wcsstrFrom hay nd p with
  | none =>
    have hnone := wcsstrFrom_none_spec h
    cases hg : leastMatchBelow hay nd p hay.length with
    | none => rfl
    | some g =>
      obtain ⟨h1, _, h3, _⟩ := leastMatchBelow_some_spec hg
      rw [hnone g h1] at h3
      cases h3
  | some j =>
    obtain ⟨h1, h2, h3⟩ := wcsstrFrom_some_spec h
    exact (leastMatchBelow_eq_some h1 (matchAt_lt_length hnd h2) h2 h3).symm

theorem backwardScan_unfold (hay nd : List Nat) (hnd : nd ≠ [])
    (sp p : Nat) (found : Option Nat) :
    backwardScan hay nd hnd sp p found =
      match wcsstrFrom hay nd p with
      | none => found
      | some idx =>
          if idx < sp then backwardScan hay nd hnd sp (idx + 1) (some idx)
          else found := by
  rw [backwardScan]
  split <;> rename_i heq <;> simp [heq]

theorem lastScan_unfold (hay nd : List Nat) (hnd : nd ≠ [])
    (p : Nat) (found : Option Nat) :
    lastScan hay nd hnd p found =
      match wcsstrFrom hay nd p with
      | none => found
      | some idx => lastScan hay nd hnd (idx + 1) (some idx) := by
  rw [lastScan]
  split <;> rename_i heq <;> simp [heq]

/-- The backward-search loop computes the greatest match offset in
`[p, startPos)`, falling back to the match remembered so far. -/
theorem backwardScan_eq {hay nd : List Nat} (hnd : nd ≠ []) (startPos : Nat) :
    ∀ (p : Nat) (found : Option Nat),
      backwardScan hay nd hnd startPos p found =
        match greatestMatchBelow hay nd p startPos with
        | some g => some g
        | none => found := by
  intro p found
  induction p, found using backwardScan.induct hay nd hnd startPos with
  | case1 p found h =>
    rw [backwardScan_unfold, h,
      greatestMatchBelow_eq_none (fun k hk _ => wcsstrFrom_none_spec h k hk)]
  | case2 p found idx h hlt ih =>
    rw [backwardScan_unfold, h]
    simp only [if_pos hlt, ih]
    obtain ⟨hpi, hmi, hmin⟩ := wcsstrFrom_some_spec h
    cases hg : greatestMatchBelow hay nd (idx + 1) startPos with
    | some g =>
      obtain ⟨h1, h2, h3, h4⟩ := greatestMatchBelow_some_spec hg
      rw [greatestMatchBelow_eq_some (show (p : Nat) ≤ g by omega) h2 h3
        (fun k hk1 hk2 _ => h4 k hk1 hk2 (by omega))]
    | none =>
      have hnone := greatestMatchBelow_none_spec hg
      rw [greatestMatchBelow_eq_some hpi hlt hmi
        (fun k hk1 hk2 hk3 => by
          rcases Nat.lt_or_ge k idx with hki | hki
          · exact hmin k hk3 hki
          · exact hnone k (by omega) hk2)]
  | case3 p found idx h hge =>
    rw [backwardScan_unfold, h]
    simp only [if_neg hge]
    obtain ⟨hpi, hmi, hmin⟩ := wcsstrFrom_some_spec h
    rw [greatestMatchBelow_eq_none (fun k hk1 hk2 => hmin k hk1 (by omega))]

/-- The backward wrap-around loop computes the greatest match offset at or
after `p`, falling back to the match remembered so far. -/
theorem lastScan_eq {hay nd : List Nat} (hnd : nd ≠ []) :
    ∀ (p : Nat) (found : Option Nat),
      lastScan hay nd hnd p found =
        match greatestMatchBelow hay nd p hay.length with
        | some g => some g
        | none => found := by
  intro p found
  induction p, found using lastScan.induct hay nd hnd with
  | case1 p found h =>
    rw [lastScan_unfold, h,
      greatestMatchBelow_eq_none (fun k hk _ => wcsstrFrom_none_spec h k hk)]
  | case2 p found idx h ih =>
    rw [lastScan_unfold, h]
    simp only [ih]
    obtain ⟨hpi, hmi, hmin⟩ := wcsstrFrom_some_spec h
    have hilt : idx < hay.length := matchAt_lt_length hnd hmi
    cases hg : greatestMatchBelow hay nd (idx + 1) hay.length with
    | some g =>
      obtain ⟨h1, h2, h3, h4⟩ := greatestMatchBelow_some_spec hg
      rw [greatestMatchBelow_eq_some (show (p : Nat) ≤ g by omega) h2 h3
        (fun k hk1 hk2 _ => h4 k hk1 hk2 (by omega))]
    | none =>
      have hnone := greatestMatchBelow_none_spec hg
      rw [greatestMatchBelow_eq_some hpi hilt hmi
        (fun k hk1 hk2 hk3 => by
          rcases Nat.lt_or_ge k idx with hki | hki
          · exact hmin k hk3 hki
          · exact hnone k (by omega) hk2)]

theorem matchAt_false_of_le {hay nd : List Nat} (hnd : nd ≠ []) {k : Nat}
    (h : hay.length ≤ k) : matchAt hay nd k = false := by
  cases hm : matchAt hay nd k with
  | false => rfl
  | true => exact absurd (matchAt_lt_length hnd hm) (by omega)

/-- Raising the exclusive bound beyond the haystack length does not change the
greatest match (matches of a non-empty needle lie below the length). -/
theorem greatestMatchBelow_congr_ge {hay nd : List Nat} (hnd : nd ≠ [])
    {b b' : Nat} (hb : hay.length ≤ b) (hb' : hay.length ≤ b') (lo : Nat) :
    greatestMatchBelow hay nd lo b = greatestMatchBelow hay nd lo b' := by
  cases hg : greatestMatchBelow hay nd lo b with
  | some g =>
    obtain ⟨h1, h2, h3, h4⟩ := greatestMatchBelow_some_spec hg
    have hglen := matchAt_lt_length hnd h3
    exact (greatestMatchBelow_eq_some h1 (by omega) h3 (fun k hk1 hk2 hk3 => by
      rcases Nat.lt_or_ge k b with hkb | hkb
      · exact h4 k hk1 hkb hk3
      · exact matchAt_false_of_le hnd (by omega))).symm
  | none =>
    have hnone := greatestMatchBelow_none_spec hg
    exact (greatestMatchBelow_eq_none (fun k hk1 hk2 => by
      rcases Nat.lt_or_ge k b with hkb | hkb
      · exact hnone k hk1 hkb
      · exact matchAt_false_of_le hnd (by omega))).symm

/-- Closed form of the backward branch of `FindInEdit`: greatest comparison
match strictly below the clamped start position, else (wrap) the greatest
comparison match at or after it. -/
theorem findInEdit_backward_eq (text nd : List Nat) (mc : Bool) (st : Nat)
    (hnd : nd ≠ []) :
    findInEdit text nd mc false st =
      Option.map (fun g => (g, g + nd.length))
        (match greatestMatchBelow (if mc then text else text.map toLowerW)
            (if mc then nd else nd.map toLowerW) 0
            (if st > text.length then text.length else st) with
         | some g => some g
         | none =>
             if (if st > text.length then text.length else st) < text.length then
               greatestMatchBelow (if mc then text else text.map toLowerW)
                 (if mc then nd else nd.map toLowerW)
                 (if st > text.length then text.length else st) text.length
             else none) := by
  have hnb : (if mc then nd else nd.map toLowerW) ≠ [] := by
    cases mc <;> simp [hnd]
  have hlen : (if mc then text else text.map toLowerW).length = text.length := by
    cases mc <;> simp
  unfold findInEdit
  rw [dif_neg hnd]
  simp only [Bool.false_eq_true, if_false, backwardScan_eq, lastScan_eq, hlen]
  cases hg : greatestMatchBelow (if mc then text else text.map toLowerW)
      (if mc then nd else nd.map toLowerW) 0
      (if st > text.length then text.length else st) with
  | some g => rfl
  | none =>
    by_cases hlt : (if st > text.length then text.length else st) < text.length
    · simp only [if_pos hlt]
      cases hg2 : greatestMatchBelow (if mc then text else text.map toLowerW)
          (if mc then nd else nd.map toLowerW)
          (if st > text.length then text.length else st) text.length <;> rfl
    · simp only [if_neg hlt]

/-- Closed form of the forward branch of `FindInEdit`: least comparison match
at or after the clamped start position, else (wrap, when the clamped start is
positive) the least comparison match from offset 0. -/
theorem findInEdit_forward_eq (text nd : List Nat) (mc : Bool) (st : Nat)
    (hnd : nd ≠ []) :
    findInEdit text nd mc true st =
      Option.map (fun i => (i, i + nd.length))
        (match leastMatchBelow (if mc then text else text.map toLowerW)
            (if mc then nd else nd.map toLowerW)
            (if st > text.length then text.length else st) text.length with
         | some i => some i
         | none =>
             if (if st > text.length then text.length else st) > 0 then
               leastMatchBelow (if mc then text else text.map toLowerW)
                 (if mc then nd else nd.map toLowerW) 0 text.length
             else none) := by
  have hnb : (if mc then nd else nd.map toLowerW) ≠ [] := by
    cases mc <;> simp [hnd]
  have hlen : (if mc then text else text.map toLowerW).length = text.length := by
    cases mc <;> simp
  unfold findInEdit
  rw [dif_neg hnd]
  simp only [if_true, wcsstrFrom_eq_leastMatchBelow hnb, hlen]

theorem countLoop_unfold (hay nd : List Nat) (hnd : nd ≠ []) (p : Nat) :
    countLoop hay nd hnd p =
      match wcsstrFrom hay nd p with
      | none => 0
      | some idx => 1 + countLoop hay nd hnd (idx + nd.length) := by
  rw [countLoop]
  split <;> rename_i heq <;> simp [heq]

theorem replaceBuild_unfold (orig search nd repl : List Nat) (hnd : nd ≠ [])
    (p : Nat) :
    replaceBuild orig search nd repl hnd p =
      match wcsstrFrom search nd p with
      | none => orig.drop p
      | some idx =>
          (orig.drop p).take (idx - p) ++ repl ++
            replaceBuild orig search nd repl hnd (idx + nd.length) := by
  rw [replaceBuild]
  split <;> rename_i heq <;> simp [heq]

theorem specReplaceCI_unfold (orig nd repl : List Nat) (hnd : nd ≠ []) :
    specReplaceCI orig nd repl hnd =
      match wcsstrFrom (orig.map toLowerW) (nd.map toLowerW) 0 with
      | none => orig
      | some i =>
          orig.take i ++ repl ++
            specReplaceCI (orig.drop (i + nd.length)) nd repl hnd := by
  rw [specReplaceCI]
  split <;> rename_i heq <;> simp [heq]

/-! ## Claim C3: backward search -/

/-- **C3**: for every haystack, non-empty needle and start offset, backward
search returns the match with the greatest start offset strictly below the
start offset; failing that, when startOffset < len(haystack), it wraps and
returns the match with the greatest start offset at or after the start
offset; in particular find("xaxa","a",backward,3) returns [1,2). -/
theorem claim_C3_backward_search :
    (∀ (text nd : List Nat) (mc : Bool) (st : Nat), nd ≠ [] →
      findInEdit text nd mc false st =
        (match greatestMatchBelow (if mc then text else text.map toLowerW)
            (if mc then nd else nd.map toLowerW) 0 st with
         | some g => some (g, g + nd.length)
         | none =>
             if st < text.length then
               (greatestMatchBelow (if mc then text else text.map toLowerW)
                 (if mc then nd else nd.map toLowerW) st text.length).map
                 (fun g => (g, g + nd.length))
             else none)) ∧
    findInEdit [120, 97, 120, 97] [97] true false 3 = some (1, 2) := by
  have main : ∀ (text nd : List Nat) (mc : Bool) (st : Nat), nd ≠ [] →
      findInEdit text nd mc false st =
        (match greatestMatchBelow (if mc then text else text.map toLowerW)
            (if mc then nd else nd.map toLowerW) 0 st with
         | some g => some (g, g + nd.length)
         | none =>
             if st < text.length then
               (greatestMatchBelow (if mc then text else text.map toLowerW)
                 (if mc then nd else nd.map toLowerW) st text.length).map
                 (fun g => (g, g + nd.length))
             else none) := by
    intro text nd mc st hnd
    have hnb : (if mc then nd else nd.map toLowerW) ≠ [] := by
      cases mc <;> simp [hnd]
    have hlen : (if mc then text else text.map toLowerW).length = text.length := by
      cases mc <;> simp
    rw [findInEdit_backward_eq text nd mc st hnd]
    rcases le_or_lt st text.length with hle | hgt
    · have hno : ¬(st > text.length) := by omega
      simp only [if_neg hno]
      cases hg : greatestMatchBelow (if mc then text else text.map toLowerW)
          (if mc then nd else nd.map toLowerW) 0 st with
      | some g => simp
      | none =>
        by_cases hlt : st < text.length
        · simp [if_pos hlt]
        · simp [if_neg hlt]
    · have hyes : st > text.length := hgt
      simp only [if_pos hyes]
      have hcongr : greatestMatchBelow (if mc then text else text.map toLowerW)
          (if mc then nd else nd.map toLowerW) 0 text.length =
          greatestMatchBelow (if mc then text else text.map toLowerW)
          (if mc then nd else nd.map toLowerW) 0 st :=
        greatestMatchBelow_congr_ge hnb (by omega) (by omega) 0
      rw [hcongr]
      have hno1 : ¬(text.length < text.length) := by omega
      have hno2 : ¬(st < text.length) := by omega
      simp only [if_neg hno1, if_neg hno2]
      cases hg : greatestMatchBelow (if mc then text else text.map toLowerW)
          (if mc then nd else nd.map toLowerW) 0 st <;> simp
  refine ⟨main, ?_⟩
  rw [main [120, 97, 120, 97] [97] true 3 (by decide)]
  decide

/-- Witness for C3 at the spec's concrete example. -/
theorem claim_C3_backward_search_witness :
    findInEdit [120, 97, 120, 97] [97] true false 3 = some (1, 2) := by
  rw [claim_C3_backward_search.1 [120, 97, 120, 97] [97] true 3 (by decide)]
  decide

/-! ## Claim C4: forward search -/

/-- **C4**: forward search first clamps the start offset into [0, len], then
returns the first (lowest-offset) match at or after the clamped start offset;
failing that, when startOffset > 0, it wraps and returns the first match
scanning from offset 0; in particular find("abcabc","abc",forward,3) returns
[3,6) and find("abcabc","abc",forward,4) returns [0,3). -/
theorem claim_C4_forward_search :
    (∀ (text nd : List Nat) (mc : Bool) (st : Nat), nd ≠ [] →
      findInEdit text nd mc true st =
        (match leastMatchBelow (if mc then text else text.map toLowerW)
            (if mc then nd else nd.map toLowerW) (min st text.length)
            text.length with
         | some i => some (i, i + nd.length)
         | none =>
             if 0 < st then
               (leastMatchBelow (if mc then text else text.map toLowerW)
                 (if mc then nd else nd.map toLowerW) 0 text.length).map
                 (fun i => (i, i + nd.length))
             else none)) ∧
    findInEdit [97, 98, 99, 97, 98, 99] [97, 98, 99] true true 3 = some (3, 6) ∧
    findInEdit [97, 98, 99, 97, 98, 99] [97, 98, 99] true true 4 = some (0, 3) := by
  have main : ∀ (text nd : List Nat) (mc : Bool) (st : Nat), nd ≠ [] →
      findInEdit text nd mc true st =
        (match leastMatchBelow (if mc then text else text.map toLowerW)
            (if mc then nd else nd.map toLowerW) (min st text.length)
            text.length with
         | some i => some (i, i + nd.length)
         | none =>
             if 0 < st then
               (leastMatchBelow (if mc then text else text.map toLowerW)
                 (if mc then nd else nd.map toLowerW) 0 text.length).map
                 (fun i => (i, i + nd.length))
             else none) := by
    intro text nd mc st hnd
    rw [findInEdit_forward_eq text nd mc st hnd]
    have hclamp : (if st > text.length then text.length else st) = min st text.length := by
      split <;> omega
    rw [hclamp]
    cases hg : leastMatchBelow (if mc then text else text.map toLowerW)
        (if mc then nd else nd.map toLowerW) (min st text.length) text.length with
    | some i => simp
    | none =>
      by_cases hpos : 0 < min st text.length
      · have hpos' : 0 < st := by omega
        have hlen' : 0 < text.length := by omega
        simp [hpos, hpos', hlen']
      · by_cases hst : 0 < st
        · -- here text.length = 0, so the wrap scan finds nothing either
          have hlen0 : text.length = 0 := by omega
          have hnone : leastMatchBelow (if mc then text else text.map toLowerW)
              (if mc then nd else nd.map toLowerW) 0 text.length = none := by
            rw [hlen0]
            rfl
          simp [hpos, hst, hnone]
        · simp [hpos, hst]
  refine ⟨main, ?_, ?_⟩
  · rw [main [97, 98, 99, 97, 98, 99] [97, 98, 99] true 3 (by decide)]
    decide
  · rw [main [97, 98, 99, 97, 98, 99] [97, 98, 99] true 4 (by decide)]
    decide

/-- Witness for C4 at the spec's concrete wrap example. -/
theorem claim_C4_forward_search_witness :
    findInEdit [97, 98, 99, 97, 98, 99] [97, 98, 99] true true 4 = some (0, 3) := by
  rw [claim_C4_forward_search.1 [97, 98, 99, 97, 98, 99] [97, 98, 99] true 4 (by decide)]
  decide

/-! ## Claim C9: empty-needle policy -/

/-- **C9**: for every haystack, flags, direction and start offset, `FindInEdit`
with an empty needle reports not-found, and `ReplaceAllOccurrences` with an
empty needle returns occurrence count 0 with the document text unchanged. -/
theorem claim_C9_empty_needle :
    (∀ (text : List Nat) (mc dir : Bool) (st : Nat),
        findInEdit text [] mc dir st = none) ∧
    (∀ (text repl : List Nat) (mc : Bool),
        replaceAllOccurrences text [] repl mc = ⟨0, text⟩) := by
  constructor
  · intro text mc dir st
    simp [findInEdit]
  · intro text repl mc
    simp [replaceAllOccurrences]

/-! ## Claim C5: replace-all count and exact output length -/

/-- The `if hnd : nd = []` guard of `ReplaceAllOccurrences` unfolded: for a
non-empty needle the result is determined by the count and rebuild passes on
the comparison buffers. -/
theorem replaceAllOccurrences_eq (text nd repl : List Nat) (mc : Bool)
    (hnd : nd ≠ []) (hb : (if mc then nd else nd.map toLowerW) ≠ []) :
    replaceAllOccurrences text nd repl mc =
      (if countLoop (if mc then text else text.map toLowerW)
          (if mc then nd else nd.map toLowerW) hb 0 = 0 then ⟨0, text⟩
       else ⟨countLoop (if mc then text else text.map toLowerW)
              (if mc then nd else nd.map toLowerW) hb 0,
             replaceBuild text (if mc then text else text.map toLowerW)
              (if mc then nd else nd.map toLowerW) repl hb 0⟩) := by
  unfold replaceAllOccurrences
  rw [dif_neg hnd]

/-- The total needle length consumed by the counted matches fits in the
haystack from the scan position on. -/
theorem countLoop_mul_le (search : List Nat) {nd : List Nat} (hnd : nd ≠ []) :
    ∀ p, countLoop search nd hnd p * nd.length ≤ search.length - p := by
  intro p
  induction p using countLoop.induct search nd hnd with
  | case1 p h =>
    rw [countLoop_unfold, h]
    simp
  | case2 p idx h ih =>
    rw [countLoop_unfold, h]
    obtain ⟨hpi, hm, _⟩ := wcsstrFrom_some_spec h
    have hb := matchAt_add_le hnd hm
    rw [Nat.add_mul, Nat.one_mul]
    omega

/-- Exact length accounting of the rebuild pass against the count pass: each
counted match exchanges one needle length for one replacement length. -/
theorem replaceBuild_length_eq {orig search nd : List Nat} (repl : List Nat) (hnd : nd ≠ [])
    (hlen : search.length = orig.length) :
    ∀ p, (replaceBuild orig search nd repl hnd p).length +
        countLoop search nd hnd p * nd.length =
      (orig.length - p) + countLoop search nd hnd p * repl.length := by
  intro p
  induction p using countLoop.induct search nd hnd with
  | case1 p h =>
    rw [replaceBuild_unfold, countLoop_unfold, h]
    simp
  | case2 p idx h ih =>
    rw [replaceBuild_unfold, countLoop_unfold, h]
    obtain ⟨hpi, hm, _⟩ := wcsstrFrom_some_spec h
    have hb := matchAt_add_le hnd hm
    simp only [List.length_append, List.length_take, List.length_drop]
    rw [Nat.add_mul, Nat.one_mul, Nat.add_mul, Nat.one_mul]
    omega

/-- **C5**: replace-all counts non-overlapping matches left-to-right (the scan
cursor advances by the needle length past each match) and the rebuilt text has
exact length originalLength − count·needleLength + count·replacementLength; in
particular replaceAll("aaa","aa","b", caseSensitive) gives count 1 and
result "ba". -/
theorem claim_C5_replace_all_length :
    (∀ (text nd repl : List Nat) (mc : Bool), nd ≠ [] →
      (replaceAllOccurrences text nd repl mc).occurrenceCount * nd.length ≤
          text.length ∧
      (replaceAllOccurrences text nd repl mc).newText.length =
        text.length -
          (replaceAllOccurrences text nd repl mc).occurrenceCount * nd.length +
          (replaceAllOccurrences text nd repl mc).occurrenceCount * repl.length) ∧
    replaceAllOccurrences [97, 97, 97] [97, 97] [98] true = ⟨1, [98, 97]⟩ := by
  constructor
  · intro text nd repl mc hnd
    have hb : (if mc then nd else nd.map toLowerW) ≠ [] := by
      cases mc <;> simp [hnd]
    rw [replaceAllOccurrences_eq text nd repl mc hnd hb]
    have hSlen : (if mc then text else text.map toLowerW).length = text.length := by
      cases mc <;> simp
    have hNlen : (if mc then nd else nd.map toLowerW).length = nd.length := by
      cases mc <;> simp
    by_cases hc : countLoop (if mc then text else text.map toLowerW)
        (if mc then nd else nd.map toLowerW) hb 0 = 0
    · rw [if_pos hc]
      simp
    · rw [if_neg hc]
      have hle := countLoop_mul_le (if mc then text else text.map toLowerW) hb 0
      have heq := replaceBuild_length_eq repl hb hSlen 0
      rw [hNlen] at hle heq
      rw [hSlen] at hle
      constructor
      · simpa using by omega
      · simpa using by omega
  · unfold replaceAllOccurrences
    simp +decide [countLoop_unfold, replaceBuild_unfold, wcsstrFrom, wcsstrAux,
      beginsWith]

/-- Witness for C5: the count bound and exact-length law at the spec's
concrete example. -/
theorem claim_C5_replace_all_length_witness :
    (replaceAllOccurrences [97, 97, 97] [97, 97] [98] true).occurrenceCount *
        ([97, 97] : List Nat).length ≤ ([97, 97, 97] : List Nat).length ∧
    (replaceAllOccurrences [97, 97, 97] [97, 97] [98] true).newText.length =
      ([97, 97, 97] : List Nat).length -
        (replaceAllOccurrences [97, 97, 97] [97, 97] [98] true).occurrenceCount *
          ([97, 97] : List Nat).length +
        (replaceAllOccurrences [97, 97, 97] [97, 97] [98] true).occurrenceCount *
          ([98] : List Nat).length :=
  claim_C5_replace_all_length.1 [97, 97, 97] [97, 97] [98] true (by decide)

/-! ## Claim C6: case-insensitive replace preserves original casing -/

theorem matchAt_drop (hay nd : List Nat) (p j : Nat) :
    matchAt (hay.drop p) nd j = matchAt hay nd (p + j) := by
  rw [matchAt, matchAt, List.drop_drop]

theorem wcsstrFrom_eq_none {hay nd : List Nat} {p : Nat}
    (h : ∀ k, p ≤ k → matchAt hay nd k = false) :
    wcsstrFrom hay nd p = none := by
  cases hw : wcsstrFrom hay nd p with
  | none => rfl
  | some j =>
    obtain ⟨h1, h2, _⟩ := wcsstrFrom_some_spec hw
    rw [h j h1] at h2
    cases h2

/-- `wcsstr` from offset `p` is the `wcsstr` of the dropped suffix, shifted. -/
theorem wcsstrFrom_shift {hay nd : List Nat} (hnd : nd ≠ []) (p : Nat) :
    wcsstrFrom hay nd p = (wcsstrFrom (hay.drop p) nd 0).map (· + p) := by
  cases hin : wcsstrFrom (hay.drop p) nd 0 with
  | none =>
    have hnone := wcsstrFrom_none_spec hin
    rw [Option.map_none']
    exact wcsstrFrom_eq_none (fun k hk => by
      have := hnone (k - p) (Nat.zero_le _)
      rw [matchAt_drop] at this
      rwa [show p + (k - p) = k by omega] at this)
  | some j =>
    obtain ⟨_, hm, hmin⟩ := wcsstrFrom_some_spec hin
    rw [matchAt_drop] at hm
    rw [Option.map_some']
    exact wcsstrFrom_eq_some (by omega) (by rw [Nat.add_comm j p]; exact hm)
      (fun k hk1 hk2 => by
        have := hmin (k - p) (Nat.zero_le _) (by omega)
        rw [matchAt_drop] at this
        rwa [show p + (k - p) = k by omega] at this)

/-- The rebuild pass of `ReplaceAllOccurrences` under case-insensitive
matching coincides with the spec-side description: unmatched spans come
verbatim from the original-case text. -/
theorem replaceBuild_eq_specReplaceCI (orig nd repl : List Nat)
    (hnd : nd ≠ []) (hb : nd.map toLowerW ≠ []) :
    ∀ p, replaceBuild orig (orig.map toLowerW) (nd.map toLowerW) repl hb p =
      specReplaceCI (orig.drop p) nd repl hnd := by
  intro p
  induction p using countLoop.induct (orig.map toLowerW) (nd.map toLowerW) hb with
  | case1 p h =>
    rw [replaceBuild_unfold, h, specReplaceCI_unfold]
    have hmd : (orig.drop p).map toLowerW = (orig.map toLowerW).drop p := by
      simp [List.map_drop]
    rw [hmd]
    have hin : wcsstrFrom ((orig.map toLowerW).drop p) (nd.map toLowerW) 0 = none := by
      have := @wcsstrFrom_shift (orig.map toLowerW) (nd.map toLowerW) hb p
      rw [h] at this
      cases hin : wcsstrFrom ((orig.map toLowerW).drop p) (nd.map toLowerW) 0 with
      | none => rfl
      | some j =>
        rw [hin, Option.map_some'] at this
        cases this
    rw [hin]
  | case2 p idx h ih =>
    have hshift := @wcsstrFrom_shift (orig.map toLowerW) (nd.map toLowerW) hb p
    rw [h] at hshift
    obtain ⟨hpi, _, _⟩ := wcsstrFrom_some_spec h
    cases hin : wcsstrFrom ((orig.map toLowerW).drop p) (nd.map toLowerW) 0 with
    | none =>
      rw [hin, Option.map_none'] at hshift
      cases hshift
    | some j =>
      rw [hin, Option.map_some'] at hshift
      have hj : j = idx - p := by
        have h2 := Option.some.inj hshift
        omega
      subst hj
      rw [replaceBuild_unfold, h, specReplaceCI_unfold]
      have hmd : (orig.drop p).map toLowerW = (orig.map toLowerW).drop p := by
        simp [List.map_drop]
      rw [hmd, hin]
      dsimp only
      have hdd : (orig.drop p).drop (idx - p + nd.length) =
          orig.drop (idx + nd.length) := by
        rw [List.drop_drop]
        congr 1
        omega
      have hlen : (nd.map toLowerW).length = nd.length := by simp
      rw [hlen] at ih
      rw [hdd, hlen, ih]

/-- **C6**: under case-insensitive matching, matches are located in lowercased
comparison copies, but the output copies every unmatched span verbatim from
the original-case text (spec-side description `specReplaceCI`); in particular
replacing "Foo" case-insensitively with "X" in "foo FOO bar" gives "X X bar". -/
theorem claim_C6_case_preserving_replace :
    (∀ (text nd repl : List Nat) (hnd : nd ≠ []),
      (replaceAllOccurrences text nd repl false).newText =
        specReplaceCI text nd repl hnd) ∧
    replaceAllOccurrences [102, 111, 111, 32, 70, 79, 79, 32, 98, 97, 114]
        [70, 111, 111] [88] false = ⟨2, [88, 32, 88, 32, 98, 97, 114]⟩ := by
  constructor
  · intro text nd repl hnd
    have hb : (if false then nd else nd.map toLowerW) ≠ [] := by simp [hnd]
    rw [replaceAllOccurrences_eq text nd repl false hnd hb]
    have hb' : nd.map toLowerW ≠ [] := by simpa using hb
    by_cases hc : countLoop (if false then text else text.map toLowerW)
        (if false then nd else nd.map toLowerW) hb 0 = 0
    · rw [if_pos hc]
      rw [countLoop_unfold] at hc
      cases hw : wcsstrFrom (if false then text else text.map toLowerW)
          (if false then nd else nd.map toLowerW) 0 with
      | some idx =>
        rw [hw] at hc
        simp at hc
      | none =>
        rw [specReplaceCI_unfold]
        have hw' : wcsstrFrom (text.map toLowerW) (nd.map toLowerW) 0 = none := by
          simpa using hw
        rw [hw']
    · rw [if_neg hc]
      show replaceBuild text (if false then text else text.map toLowerW)
          (if false then nd else nd.map toLowerW) repl hb 0 =
        specReplaceCI text nd repl hnd
      have := replaceBuild_eq_specReplaceCI text nd repl hnd hb' 0
      rw [List.drop_zero] at this
      simpa using this
  · unfold replaceAllOccurrences
    simp +decide [countLoop_unfold, replaceBuild_unfold, wcsstrFrom, wcsstrAux,
      beginsWith, toLowerW]

/-- Witness for C6: the general casing-preservation law applied at the spec's
concrete example. -/
theorem claim_C6_case_preserving_replace_witness :
    (replaceAllOccurrences [102, 111, 111, 32, 70, 79, 79, 32, 98, 97, 114]
        [70, 111, 111] [88] false).newText =
      specReplaceCI [102, 111, 111, 32, 70, 79, 79, 32, 98, 97, 114]
        [70, 111, 111] [88] (by decide) :=
  claim_C6_case_preserving_replace.1
    [102, 111, 111, 32, 70, 79, 79, 32, 98, 97, 114] [70, 111, 111] [88]
    (by decide)

/-! ## Claim C7: the detection cascade -/

set_option maxRecDepth 4000 in
theorem utf8DecodeOne_length {b : Nat} {rest : List Nat} {c : Nat}
    {rest' : List Nat} (h : utf8DecodeOne b rest = some (c, rest')) :
    rest'.length ≤ rest.length := by
  unfold utf8DecodeOne at h
  repeat' split at h
  all_goals (cases h <;> (try simp) <;> (try omega))

/-- The fuel of `utf8DecodeStrictAux` is immaterial once it covers the input
length. -/
theorem utf8DecodeStrictAux_fuel :
    ∀ (n : Nat) (l : List Nat), l.length ≤ n → ∀ f1 f2, l.length ≤ f1 →
      l.length ≤ f2 → utf8DecodeStrictAux f1 l = utf8DecodeStrictAux f2 l := by
  intro n
  induction n with
  | zero =>
    intro l hl f1 f2 _ _
    have : l = [] := List.length_eq_zero.mp (by omega)
    subst this
    cases f1 <;> cases f2 <;> rfl
  | succ n ih =>
    intro l hl f1 f2 h1 h2
    cases l with
    | nil => cases f1 <;> cases f2 <;> rfl
    | cons b rest =>
      simp only [List.length_cons] at hl h1 h2
      cases f1 with
      | zero => omega
      | succ f1' =>
        cases f2 with
        | zero => omega
        | succ f2' =>
          simp only [utf8DecodeStrictAux]
          cases hone : utf8DecodeOne b rest with
          | none => rfl
          | some pr =>
            cases pr with
            | mk c rest' =>
              have hlen := utf8DecodeOne_length hone
              dsimp only
              rw [ih rest' (by omega) f1' f2' (by omega) (by omega)]

theorem utf8DecodeStrict_nil : utf8DecodeStrict [] = some [] := rfl

/-- Unfolding of strict UTF-8 decoding at a non-empty input. -/
theorem utf8DecodeStrict_cons (b : Nat) (rest : List Nat) :
    utf8DecodeStrict (b :: rest) =
      match utf8DecodeOne b rest with
      | none => none
      | some (c, rest') => (utf8DecodeStrict rest').map (c :: ·) := by
  unfold utf8DecodeStrict
  simp only [List.length_cons, utf8DecodeStrictAux]
  cases hone : utf8DecodeOne b rest with
  | none => rfl
  | some pr =>
    cases pr with
    | mk c rest' =>
      have hlen := utf8DecodeOne_length hone
      dsimp only
      rw [utf8DecodeStrictAux_fuel rest.length rest' hlen rest.length
        rest'.length hlen (Nat.le_refl _)]

theorem utf8DecodeStrict_cons_ne_nil {b : Nat} {rest cps : List Nat}
    (h : utf8DecodeStrict (b :: rest) = some cps) : cps ≠ [] := by
  rw [utf8DecodeStrict_cons] at h
  cases hone : utf8DecodeOne b rest with
  | none =>
    rw [hone] at h
    cases h
  | some pr =>
    cases pr with
    | mk c rest' =>
      rw [hone] at h
      rcases Option.map_eq_some'.mp h with ⟨l, -, rfl⟩
      simp

theorem cpToUtf16_ne_nil (c : Nat) : cpToUtf16 c ≠ [] := by
  unfold cpToUtf16
  split <;> simp

/-- The strict validation call returns a positive unit count exactly for
non-empty valid UTF-8 input. -/
theorem multiByteToWideCharUtf8Strict_pos (bytes : List Nat) :
    0 < multiByteToWideCharUtf8Strict bytes ↔
      bytes ≠ [] ∧ (utf8DecodeStrict bytes).isSome := by
  unfold multiByteToWideCharUtf8Strict
  cases bytes with
  | nil =>
    have hdec : utf8DecodeStrict ([] : List Nat) = some [] := rfl
    rw [hdec]
    simp
  | cons b rest =>
    cases hd : utf8DecodeStrict (b :: rest) with
    | none => simp
    | some cps =>
      have hne := utf8DecodeStrict_cons_ne_nil hd
      cases cps with
      | nil => exact absurd rfl hne
      | cons c tl =>
        have h1 : 0 < (cpToUtf16 c).length :=
          List.length_pos.mpr (cpToUtf16_ne_nil c)
        constructor
        · intro _
          exact ⟨List.cons_ne_nil _ _, rfl⟩
        · intro _
          simp only [List.flatMap_cons, List.length_append]
          omega

theorem take_two_eq_iff (bytes : List Nat) (a b : Nat) :
    bytes.take 2 = [a, b] ↔
      2 ≤ bytes.length ∧ bytes.getD 0 0 = a ∧ bytes.getD 1 0 = b := by
  match bytes with
  | [] => simp
  | [x] => simp
  | x :: y :: rest =>
    have et : (x :: y :: rest).take 2 = [x, y] := rfl
    have e0 : (x :: y :: rest).getD 0 0 = x := rfl
    have e1 : (x :: y :: rest).getD 1 0 = y := rfl
    rw [et, e0, e1]
    simp only [List.cons.injEq, and_true, List.length_cons]
    omega

theorem take_three_eq_iff (bytes : List Nat) (a b c : Nat) :
    bytes.take 3 = [a, b, c] ↔
      3 ≤ bytes.length ∧ bytes.getD 0 0 = a ∧ bytes.getD 1 0 = b ∧
      bytes.getD 2 0 = c := by
  match bytes with
  | [] => simp
  | [x] => simp
  | [x, y] => simp
  | x :: y :: z :: rest =>
    have et : (x :: y :: z :: rest).take 3 = [x, y, z] := rfl
    have e0 : (x :: y :: z :: rest).getD 0 0 = x := rfl
    have e1 : (x :: y :: z :: rest).getD 1 0 = y := rfl
    have e2 : (x :: y :: z :: rest).getD 2 0 = z := rfl
    rw [et, e0, e1, e2]
    simp only [List.cons.injEq, and_true, List.length_cons]
    omega

/-- `DetectEncoding` computes the spec's §4.1 cascade. -/
theorem detectEncoding_eq_spec (bytes : List Nat) :
    detectEncoding bytes = specDetectEncoding bytes := by
  rw [detectEncoding, specDetectEncoding]
  by_cases h1 : 2 ≤ bytes.length ∧ bytes.getD 0 0 = 0xFF ∧ bytes.getD 1 0 = 0xFE
  · rw [if_pos h1, if_pos ((take_two_eq_iff bytes 0xFF 0xFE).mpr h1)]
  · rw [if_neg h1, if_neg (fun hh => h1 ((take_two_eq_iff bytes 0xFF 0xFE).mp hh))]
    by_cases h2 : 2 ≤ bytes.length ∧ bytes.getD 0 0 = 0xFE ∧ bytes.getD 1 0 = 0xFF
    · rw [if_pos h2, if_pos ((take_two_eq_iff bytes 0xFE 0xFF).mpr h2)]
    · rw [if_neg h2,
        if_neg (fun hh => h2 ((take_two_eq_iff bytes 0xFE 0xFF).mp hh))]
      by_cases h3 : 3 ≤ bytes.length ∧ bytes.getD 0 0 = 0xEF ∧
          bytes.getD 1 0 = 0xBB ∧ bytes.getD 2 0 = 0xBF
      · rw [if_pos h3, if_pos ((take_three_eq_iff bytes 0xEF 0xBB 0xBF).mpr h3)]
      · rw [if_neg h3,
          if_neg (fun hh => h3 ((take_three_eq_iff bytes 0xEF 0xBB 0xBF).mp hh))]
        by_cases h4 : 0 < multiByteToWideCharUtf8Strict bytes
        · rw [if_pos h4, if_pos ((multiByteToWideCharUtf8Strict_pos bytes).mp h4)]
        · rw [if_neg h4,
            if_neg (fun hh => h4 ((multiByteToWideCharUtf8Strict_pos bytes).mpr hh))]

/-- **C7**: detection is the fixed priority cascade — UTF-16LE BOM, UTF-16BE
BOM, UTF-8 BOM, whole-content strict UTF-8 validation, else ANSI; in
particular a buffer opening FF FE EF BB BF is UTF16LE, and a BOM-less buffer
of valid non-empty UTF-8 is UTF8. -/
theorem claim_C7_detect_cascade :
    (∀ bytes, detectEncoding bytes = specDetectEncoding bytes) ∧
    detectEncoding [0xFF, 0xFE, 0xEF, 0xBB, 0xBF] = TextEncoding.UTF16LE ∧
    (∀ bytes, bytes.take 2 ≠ [0xFF, 0xFE] → bytes.take 2 ≠ [0xFE, 0xFF] →
      bytes.take 3 ≠ [0xEF, 0xBB, 0xBF] → bytes ≠ [] →
      (utf8DecodeStrict bytes).isSome →
      detectEncoding bytes = TextEncoding.UTF8) := by
  refine ⟨detectEncoding_eq_spec, by decide, ?_⟩
  intro bytes hb1 hb2 hb3 hne hval
  rw [detectEncoding_eq_spec, specDetectEncoding, if_neg hb1, if_neg hb2,
    if_neg hb3, if_pos ⟨hne, hval⟩]

/-- Witness for C7: a BOM-less one-byte ASCII file detects as UTF8. -/
theorem claim_C7_detect_cascade_witness :
    detectEncoding [0x41] = TextEncoding.UTF8 :=
  claim_C7_detect_cascade.2.2 [0x41] (by decide) (by decide) (by decide)
    (by decide) (by decide)

/-! ## Claim C8: UTF-16 decode totality and truncation -/

theorem bytesToWideLE_length : ∀ l : List Nat,
    (bytesToWideLE l).length = l.length / 2
  | [] => by simp [bytesToWideLE]
  | [b] => by simp [bytesToWideLE]
  | b0 :: b1 :: rest => by
      have := bytesToWideLE_length rest
      simp only [bytesToWideLE, List.length_cons, this]
      omega

theorem bytesToWideBE_length : ∀ l : List Nat,
    (bytesToWideBE l).length = l.length / 2
  | [] => by simp [bytesToWideBE]
  | [b] => by simp [bytesToWideBE]
  | b0 :: b1 :: rest => by
      have := bytesToWideBE_length rest
      simp only [bytesToWideBE, List.length_cons, this]
      omega

/-- **C8**: UTF-16 decoding fails exactly when the input is shorter than 2
bytes; otherwise it succeeds, skips a matching 2-byte BOM, produces
⌊usableBytes/2⌋ code units (a trailing odd byte is dropped), and a BOM-only
input decodes to the empty text. -/
theorem claim_C8_utf16_decode :
    (∀ (cp : AnsiCodePage) (data : List Nat),
      ((decodeToWide cp data TextEncoding.UTF16LE).isSome ↔ 2 ≤ data.length) ∧
      ((decodeToWide cp data TextEncoding.UTF16BE).isSome ↔ 2 ≤ data.length)) ∧
    (∀ (cp : AnsiCodePage) (data t : List Nat),
      decodeToWide cp data TextEncoding.UTF16LE = some t →
        t.length = (data.length -
          (if data.getD 0 0 = 0xFF ∧ data.getD 1 0 = 0xFE then 2 else 0)) / 2) ∧
    (∀ (cp : AnsiCodePage) (data t : List Nat),
      decodeToWide cp data TextEncoding.UTF16BE = some t →
        t.length = (data.length -
          (if data.getD 0 0 = 0xFE ∧ data.getD 1 0 = 0xFF then 2 else 0)) / 2) ∧
    (∀ cp : AnsiCodePage,
      decodeToWide cp [0xFF, 0xFE] TextEncoding.UTF16LE = some [] ∧
      decodeToWide cp [0xFE, 0xFF] TextEncoding.UTF16BE = some []) := by
  refine ⟨?_, ?_, ?_, ?_⟩
  · intro cp data
    constructor <;>
      · simp only [decodeToWide]
        by_cases hlt : data.length < 2
        · simp [if_pos hlt]
          omega
        · simp [if_neg hlt]
          omega
  · intro cp data t h
    simp only [decodeToWide] at h
    by_cases hlt : data.length < 2
    · rw [if_pos hlt] at h
      cases h
    · rw [if_neg hlt] at h
      rcases Option.some.inj h with rfl
      rw [bytesToWideLE_length, List.length_drop]
  · intro cp data t h
    simp only [decodeToWide] at h
    by_cases hlt : data.length < 2
    · rw [if_pos hlt] at h
      cases h
    · rw [if_neg hlt] at h
      rcases Option.some.inj h with rfl
      rw [bytesToWideBE_length, List.length_drop]
  · intro cp
    exact ⟨rfl, rfl⟩

/-- Witness for C8: the unit-count law at a 4-byte BOM-ful LE file. -/
theorem claim_C8_utf16_decode_witness :
    ([0x41] : List Nat).length =
      (([0xFF, 0xFE, 0x41, 0x00] : List Nat).length -
        (if ([0xFF, 0xFE, 0x41, 0x00] : List Nat).getD 0 0 = 0xFF ∧
            ([0xFF, 0xFE, 0x41, 0x00] : List Nat).getD 1 0 = 0xFE then 2
         else 0)) / 2 :=
  claim_C8_utf16_decode.2.1 latin1Page [0xFF, 0xFE, 0x41, 0x00] [0x41]
    (by decide)

/-! ## Claim C10: zero-byte load versus direct detection -/

/-- **C10**: loading a zero-byte file succeeds with an empty text and reported
encoding UTF8 without reaching detection, while `DetectEncoding` applied to
the empty byte sequence returns ANSI (the strict validation call rejects
zero-length input, returning 0). -/
theorem claim_C10_empty_load :
    (∀ cp : AnsiCodePage, loadTextFile cp [] = some ⟨[], TextEncoding.UTF8⟩) ∧
    detectEncoding [] = TextEncoding.ANSI ∧
    multiByteToWideCharUtf8Strict [] = 0 := by
  exact ⟨fun cp => rfl, by decide, by decide⟩

/-! ## Claim C1: the UTF16BE save downgrade -/

/-- **C1** counterexample: after a save requested as UTF16BE, the encoding the
caller observes is still UTF16BE, not UTF8 — `SaveTextFile` assigns
`ENC_UTF8` only to its by-value parameter, and `DoFileSave` never updates
`g_app.encoding` — contradicting the claim that the encoding presented to the
caller reflects UTF8. -/
theorem claim_C1_counterexample :
    doFileSaveEncodingAfter TextEncoding.UTF16BE = TextEncoding.UTF16BE ∧
    doFileSaveEncodingAfter TextEncoding.UTF16BE ≠ TextEncoding.UTF8 := by
  decide

theorem utf16ToCodepoints_cons_ne_nil {u : Nat} {rest : List Nat} :
    utf16ToCodepoints (u :: rest) ≠ [] := by
  cases rest with
  | nil =>
    simp only [utf16ToCodepoints]
    split <;> simp
  | cons v rest' =>
    simp only [utf16ToCodepoints]
    repeat' split
    all_goals simp

theorem cpToUtf8_ne_nil (c : Nat) : cpToUtf8 c ≠ [] := by
  unfold cpToUtf8
  split_ifs <;> simp

theorem utf8BytesOf_ne_nil {text : List Nat} (h : text ≠ []) :
    utf8BytesOf text ≠ [] := by
  unfold utf8BytesOf
  cases text with
  | nil => exact absurd rfl h
  | cons u rest =>
    cases hcp : utf16ToCodepoints (u :: rest) with
    | nil => exact absurd hcp utf16ToCodepoints_cons_ne_nil
    | cons c tl =>
      simp [List.flatMap_cons, List.append_eq_nil, cpToUtf8_ne_nil c]

/-- **C1** amended: a UTF16BE save request writes exactly the bytes of a UTF8
save — the 3-byte UTF-8 BOM followed by the UTF-8 encoding of the text — and
the downgrade to UTF8 is recorded only in `SaveTextFile`'s local by-value
parameter; the caller's stored encoding is unchanged (still UTF16BE). -/
theorem claim_C1_utf16be_downgrade :
    (∀ (cp : AnsiCodePage) (text : List Nat),
      saveTextFile cp text TextEncoding.UTF16BE =
        saveTextFile cp text TextEncoding.UTF8) ∧
    (∀ (cp : AnsiCodePage) (text : List Nat), text ≠ [] →
      saveTextFile cp text TextEncoding.UTF16BE =
        some ([0xEF, 0xBB, 0xBF] ++ utf8BytesOf text)) ∧
    saveTextFileLocalEncoding TextEncoding.UTF16BE = TextEncoding.UTF8 ∧
    (∀ e, doFileSaveEncodingAfter e = e) := by
  refine ⟨fun cp text => rfl, ?_, rfl, fun e => rfl⟩
  intro cp text hne
  show writeUTF8WithBOM text = _
  rw [writeUTF8WithBOM,
    if_neg (fun hh => utf8BytesOf_ne_nil hne (List.length_eq_zero.mp hh))]

/-- Witness for C1 (amended): the downgraded bytes at a one-character text. -/
theorem claim_C1_utf16be_downgrade_witness :
    saveTextFile latin1Page [0x41] TextEncoding.UTF16BE =
      some ([0xEF, 0xBB, 0xBF] ++ utf8BytesOf [0x41]) :=
  claim_C1_utf16be_downgrade.2.1 latin1Page [0x41] (by decide)

/-! ## Claim C2: the round-trip law -/

/-- Decoding the UTF-8 bytes of a scalar value recovers it and continues with
the remaining input. -/
theorem utf8DecodeStrict_encode_cons (c : Nat) (hv : ValidScalar c)
    (bs : List Nat) :
    utf8DecodeStrict (cpToUtf8 c ++ bs) =
      (utf8DecodeStrict bs).map (c :: ·) := by
  unfold ValidScalar at hv
  unfold cpToUtf8
  rcases Nat.lt_or_ge c 0x80 with h1 | h1
  · rw [if_pos h1, List.singleton_append, utf8DecodeStrict_cons]
    have hone : utf8DecodeOne c bs = some (c, bs) := by
      unfold utf8DecodeOne
      rw [if_pos h1]
    rw [hone]
  · rcases Nat.lt_or_ge c 0x800 with h2 | h2
    · rw [if_neg (by omega), if_pos h2, List.cons_append, List.singleton_append,
        utf8DecodeStrict_cons]
      have hone : utf8DecodeOne (0xC0 + c / 64) ((0x80 + c % 64) :: bs) =
          some (c, bs) := by
        unfold utf8DecodeOne
        rw [if_neg (by omega), if_neg (by omega), if_pos (by omega)]
        dsimp only
        rw [if_pos (by omega)]
        have he : (0xC0 + c / 64 - 0xC0) * 64 + (0x80 + c % 64 - 0x80) = c := by
          omega
        rw [he]
      rw [hone]
    · rcases Nat.lt_or_ge c 0x10000 with h3 | h3
      · rw [if_neg (by omega), if_neg (by omega), if_pos h3,
          List.cons_append, List.cons_append, List.singleton_append,
          utf8DecodeStrict_cons]
        have hone : utf8DecodeOne (0xE0 + c / 4096)
            ((0x80 + c / 64 % 64) :: (0x80 + c % 64) :: bs) = some (c, bs) := by
          unfold utf8DecodeOne
          rw [if_neg (by omega), if_neg (by omega), if_neg (by omega),
            if_pos (by omega)]
          dsimp only
          rw [if_pos (by omega)]
          have he : (0xE0 + c / 4096 - 0xE0) * 4096 +
              (0x80 + c / 64 % 64 - 0x80) * 64 + (0x80 + c % 64 - 0x80) = c := by
            omega
          rw [he]
        rw [hone]
      · rw [if_neg (by omega), if_neg (by omega), if_neg (by omega),
          List.cons_append, List.cons_append, List.cons_append,
          List.singleton_append, utf8DecodeStrict_cons]
        have hone : utf8DecodeOne (0xF0 + c / 0x40000)
            ((0x80 + c / 4096 % 64) :: (0x80 + c / 64 % 64) ::
              (0x80 + c % 64) :: bs) = some (c, bs) := by
          unfold utf8DecodeOne
          rw [if_neg (by omega), if_neg (by omega), if_neg (by omega),
            if_neg (by omega), if_pos (by omega)]
          dsimp only
          rw [if_pos (by omega)]
          have he : (0xF0 + c / 0x40000 - 0xF0) * 0x40000 +
              (0x80 + c / 4096 % 64 - 0x80) * 4096 +
              (0x80 + c / 64 % 64 - 0x80) * 64 + (0x80 + c % 64 - 0x80) = c := by
            omega
          rw [he]
        rw [hone]

/-- Decoding the concatenated UTF-8 bytes of any scalar-value sequence
recovers the sequence. -/
theorem utf8DecodeStrict_flatMap (cps : List Nat)
    (h : ∀ c ∈ cps, ValidScalar c) :
    utf8DecodeStrict (cps.flatMap cpToUtf8) = some cps := by
  induction cps with
  | nil => rfl
  | cons c tl ih =>
    rw [List.flatMap_cons,
      utf8DecodeStrict_encode_cons c (h c (by simp)) (tl.flatMap cpToUtf8),
      ih (fun x hx => h x (by simp [hx]))]
    rfl

set_option maxRecDepth 4000 in
/-- For a well-formed 16-bit code-unit sequence, pairing produces only scalar
values, and re-expanding the pairs recovers the sequence. -/
theorem utf16ToCodepoints_wf :
    ∀ (n : Nat) (t : List Nat), t.length ≤ n → wellFormedUtf16 t = true →
      (∀ u ∈ t, u < 65536) →
      (∀ c ∈ utf16ToCodepoints t, ValidScalar c) ∧
      (utf16ToCodepoints t).flatMap cpToUtf16 = t := by
  intro n
  induction n with
  | zero =>
    intro t ht _ _
    have : t = [] := List.length_eq_zero.mp (by omega)
    subst this
    exact ⟨by simp [utf16ToCodepoints], rfl⟩
  | succ m ih =>
    intro t ht hwf hb
    match t with
    | [] => exact ⟨by simp [utf16ToCodepoints], rfl⟩
    | [u] =>
      have hu16 : u < 65536 := hb u (by simp)
      by_cases hs : 0xD800 ≤ u ∧ u ≤ 0xDFFF
      · simp only [wellFormedUtf16, if_pos hs] at hwf
        cases hwf
      · simp only [utf16ToCodepoints, if_neg hs]
        refine ⟨?_, ?_⟩
        · intro c hc
          rcases List.mem_singleton.mp hc with rfl
          exact ⟨by omega, by omega⟩
        · simp only [List.flatMap_cons, List.flatMap_nil, List.append_nil]
          unfold cpToUtf16
          rw [if_pos (by omega)]
    | u :: v :: rest =>
      have hu16 : u < 65536 := hb u (by simp)
      have hv16 : v < 65536 := hb v (by simp)
      have hlt : rest.length + 2 ≤ m + 1 := by simpa using ht
      by_cases hu : 0xD800 ≤ u ∧ u ≤ 0xDBFF
      · by_cases hv : 0xDC00 ≤ v ∧ v ≤ 0xDFFF
        · simp only [utf16ToCodepoints, if_pos hu, if_pos hv]
          simp only [wellFormedUtf16, if_pos hu, if_pos hv] at hwf
          obtain ⟨hA, hB⟩ := ih rest (by omega) hwf
            (fun x hx => hb x (by simp [hx]))
          refine ⟨?_, ?_⟩
          · have hhead : ValidScalar
                (0x10000 + (u - 0xD800) * 0x400 + (v - 0xDC00)) :=
              ⟨by omega, by omega⟩
            intro c hc
            rw [List.mem_cons] at hc
            rcases hc with hceq | hc'
            · rw [hceq]
              exact hhead
            · exact hA c hc'
          · simp only [List.flatMap_cons, hB]
            have hcp : cpToUtf16 (0x10000 + (u - 0xD800) * 0x400 +
                (v - 0xDC00)) = [u, v] := by
              unfold cpToUtf16
              rw [if_neg (by omega)]
              have e1 : 0xD800 + (0x10000 + (u - 0xD800) * 0x400 +
                  (v - 0xDC00) - 0x10000) / 0x400 = u := by omega
              have e2 : 0xDC00 + (0x10000 + (u - 0xD800) * 0x400 +
                  (v - 0xDC00) - 0x10000) % 0x400 = v := by omega
              rw [e1, e2]
            rw [hcp]
            rfl
        · simp only [wellFormedUtf16, if_pos hu, if_neg hv] at hwf
          cases hwf
      · by_cases hlo : 0xDC00 ≤ u ∧ u ≤ 0xDFFF
        · simp only [wellFormedUtf16, if_neg hu, if_pos hlo] at hwf
          cases hwf
        · simp only [utf16ToCodepoints, if_neg hu, if_neg hlo]
          simp only [wellFormedUtf16, if_neg hu, if_neg hlo] at hwf
          obtain ⟨hA, hB⟩ := ih (v :: rest) (by simp; omega) hwf
            (fun x hx => hb x (by simp [hx]))
          refine ⟨?_, ?_⟩
          · have hhead : ValidScalar u := ⟨by omega, by omega⟩
            intro c hc
            rw [List.mem_cons] at hc
            rcases hc with hceq | hc'
            · rw [hceq]
              exact hhead
            · exact hA c hc'
          · simp only [List.flatMap_cons, hB]
            have hcp : cpToUtf16 u = [u] := by
              unfold cpToUtf16
              rw [if_pos (by omega)]
            rw [hcp]
            rfl

/-- Reassembling the little-endian byte pairs of 16-bit units recovers them. -/
theorem bytesToWideLE_pairs :
    ∀ (t : List Nat), (∀ u ∈ t, u < 65536) →
      bytesToWideLE (t.flatMap (fun u => [u % 256, u / 256 % 256])) = t := by
  intro t
  induction t with
  | nil => intro _; rfl
  | cons u rest ih =>
    intro hb
    have hu : u < 65536 := hb u (by simp)
    have hstep : bytesToWideLE ((u :: rest).flatMap
        (fun u => [u % 256, u / 256 % 256])) =
      (u % 256 + 256 * (u / 256 % 256)) ::
        bytesToWideLE (rest.flatMap (fun u => [u % 256, u / 256 % 256])) := rfl
    rw [hstep, ih (fun x hx => hb x (by simp [hx]))]
    congr 1
    omega

/-- **C2** counterexample: the round-trip law fails as universally stated.
A lone high surrogate saved as UTF8 comes back as U+FFFD (the conversion
substitutes unpaired surrogates); the empty text cannot be saved as UTF8 at
all (the conversion reports 0 bytes and `WriteUTF8WithBOM` treats that as
failure); and a unit outside the code page saved as ANSI comes back as the
substitution character. -/
theorem claim_C2_counterexample :
    (writeUTF8WithBOM [0xD800] =
        some [0xEF, 0xBB, 0xBF, 0xEF, 0xBF, 0xBD] ∧
      decodeToWide latin1Page [0xEF, 0xBB, 0xBF, 0xEF, 0xBF, 0xBD]
          TextEncoding.UTF8 = some [0xFFFD] ∧
      ([0xFFFD] : List Nat) ≠ [0xD800]) ∧
    writeUTF8WithBOM [] = none ∧
    (writeANSI latin1Page [0x0394] = some [0x3F] ∧
      decodeToWide latin1Page [0x3F] TextEncoding.ANSI = some [0x3F] ∧
      ([0x3F] : List Nat) ≠ [0x0394]) := by
  refine ⟨⟨by decide, by decide, by decide⟩, by decide, by decide, by decide,
    by decide⟩

/-- **C2** amended: the round trip holds with the inherent provisos of the
conversions — UTF16LE round-trips every 16-bit text; UTF8 round-trips every
non-empty well-formed (no unpaired surrogate) 16-bit text; ANSI round-trips
every non-empty text whose units survive the active code page; and a UTF16BE
save is byte-identical to a UTF8 save (the documented downgrade). -/
theorem claim_C2_round_trip :
    (∀ (cp : AnsiCodePage) (t : List Nat), (∀ u ∈ t, u < 65536) →
      ∃ bytes, saveTextFile cp t TextEncoding.UTF16LE = some bytes ∧
        decodeToWide cp bytes TextEncoding.UTF16LE = some t) ∧
    (∀ (cp : AnsiCodePage) (t : List Nat), t ≠ [] →
      wellFormedUtf16 t = true → (∀ u ∈ t, u < 65536) →
      ∃ bytes, saveTextFile cp t TextEncoding.UTF8 = some bytes ∧
        decodeToWide cp bytes TextEncoding.UTF8 = some t) ∧
    (∀ (cp : AnsiCodePage) (t : List Nat), t ≠ [] →
      (∀ u ∈ t, cp.toWide (cp.fromWide u) = u) →
      ∃ bytes, saveTextFile cp t TextEncoding.ANSI = some bytes ∧
        decodeToWide cp bytes TextEncoding.ANSI = some t) ∧
    (∀ (cp : AnsiCodePage) (t : List Nat),
      saveTextFile cp t TextEncoding.UTF16BE =
        saveTextFile cp t TextEncoding.UTF8) := by
  refine ⟨?_, ?_, ?_, fun cp t => rfl⟩
  · -- UTF16LE
    intro cp t hb
    refine ⟨_, rfl, ?_⟩
    show decodeToWide cp
      ([0xFF, 0xFE] ++ t.flatMap (fun u => [u % 256, u / 256 % 256]))
      TextEncoding.UTF16LE = some t
    simp only [decodeToWide]
    rw [if_neg (by simp)]
    rw [if_pos (by constructor <;> rfl)]
    have hdrop : ([0xFF, 0xFE] ++
        t.flatMap (fun u => [u % 256, u / 256 % 256])).drop 2 =
      t.flatMap (fun u => [u % 256, u / 256 % 256]) := rfl
    rw [hdrop, bytesToWideLE_pairs t hb]
  · -- UTF8
    intro cp t hne hwf hb
    have hbytes := utf8BytesOf_ne_nil hne
    refine ⟨[0xEF, 0xBB, 0xBF] ++ utf8BytesOf t, ?_, ?_⟩
    · show writeUTF8WithBOM t = some ([0xEF, 0xBB, 0xBF] ++ utf8BytesOf t)
      rw [writeUTF8WithBOM,
        if_neg (fun hh => hbytes (List.length_eq_zero.mp hh))]
    · obtain ⟨hA, hB⟩ := utf16ToCodepoints_wf t.length t (Nat.le_refl _) hwf hb
      simp only [decodeToWide]
      have hoff : (if 3 ≤ ([0xEF, 0xBB, 0xBF] ++ utf8BytesOf t).length ∧
          ([0xEF, 0xBB, 0xBF] ++ utf8BytesOf t).getD 0 0 = 0xEF ∧
          ([0xEF, 0xBB, 0xBF] ++ utf8BytesOf t).getD 1 0 = 0xBB ∧
          ([0xEF, 0xBB, 0xBF] ++ utf8BytesOf t).getD 2 0 = 0xBF then 3
        else 0) = 3 :=
        if_pos ⟨by simp, rfl, rfl, rfl⟩
      rw [hoff]
      rw [if_neg (by
        have hpos := List.length_pos.mpr hbytes
        simp only [List.length_append, List.length_cons, List.length_nil]
        omega)]
      have hdrop : ([0xEF, 0xBB, 0xBF] ++ utf8BytesOf t).drop 3 =
        utf8BytesOf t := rfl
      rw [hdrop]
      unfold mb2wcUtf8Units utf8BytesOf
      rw [utf8DecodeStrict_flatMap (utf16ToCodepoints t) hA]
      dsimp only
      rw [hB]
  · -- ANSI
    intro cp t hne hcp
    have hmap : (t.map cp.fromWide).length ≠ 0 := by
      simpa using fun hh => hne (List.length_eq_zero.mp (by simpa using hh))
    refine ⟨t.map cp.fromWide, ?_, ?_⟩
    · show writeANSI cp t = some (t.map cp.fromWide)
      rw [writeANSI, if_neg hmap]
    · simp only [decodeToWide]
      rw [if_neg (fun hh => hmap (by simpa using hh)), List.map_map]
      congr 1
      calc t.map (cp.toWide ∘ cp.fromWide) = t.map id :=
            List.map_congr_left (fun u hu => hcp u hu)
        _ = t := List.map_id t

/-- Witness for C2 (amended): all four round-trip branches at the
one-character text "A" over the Latin-1-style page. -/
theorem claim_C2_round_trip_witness :
    (∃ bytes, saveTextFile latin1Page [0x41] TextEncoding.UTF16LE = some bytes ∧
      decodeToWide latin1Page bytes TextEncoding.UTF16LE = some [0x41]) ∧
    (∃ bytes, saveTextFile latin1Page [0x41] TextEncoding.UTF8 = some bytes ∧
      decodeToWide latin1Page bytes TextEncoding.UTF8 = some [0x41]) ∧
    (∃ bytes, saveTextFile latin1Page [0x41] TextEncoding.ANSI = some bytes ∧
      decodeToWide latin1Page bytes TextEncoding.ANSI = some [0x41]) ∧
    saveTextFile latin1Page [0x41] TextEncoding.UTF16BE =
      saveTextFile latin1Page [0x41] TextEncoding.UTF8 :=
  ⟨claim_C2_round_trip.1 latin1Page [0x41] (by decide),
   claim_C2_round_trip.2.1 latin1Page [0x41] (by decide) (by decide) (by decide),
   claim_C2_round_trip.2.2.1 latin1Page [0x41] (by decide) (by decide),
   claim_C2_round_trip.2.2.2 latin1Page [0x41]⟩

end Retropad
